import Mathlib

/-!
RESP codec and append-only file of `redis-clone`

A shallow embedding of `src/redis-clone/resp.go` (the `Value` model, the
decoder `Resp` and the encoder `Value.Marshal`) and of `src/redis-clone/aof.go`
(the append-only file `Aof`).

Modelling conventions.

* A Go `string` / `[]byte` is a `List Byte`; the field `typ`, which the code
  only ever compares with string literals, is a Lean `String`.
* A Go slice is a `List`; a `nil` slice and an empty slice are both `[]`.
* `int` is the 64-bit Go `int`, modelled as `Int`; the only places where its
  range matters are `strconv.ParseInt` (range check made explicit) and
  `make([]byte, len)` (panics outside `0 .. maxAlloc`).
* `bufio.Reader` is modelled with its buffer: `Reader.buffered` counts how
  many of the unread bytes already sit in the 4096-byte buffer.  The
  underlying source is an in-memory byte string or a regular file: one `Read`
  on it returns as many bytes as were asked for, as far as they exist, and
  `io.EOF` only when none is left.
* The mutex of `Aof` and the background `Sync` loop do not change the bytes of
  the file and are not modelled; the consumer callback of `Aof.Read` is
  modelled by the list of values it is called with.
-/

namespace RedisClone

/-! ## Bytes, constants, errors -/

/-- One byte of a Go `string` or `[]byte`. -/
abbrev Byte := UInt8

/-- The prefix of a simple string, `'+'`. -/
def STRING : Byte := 43
/-- The prefix of an error, `'-'`. -/
def ERROR : Byte := 45
/-- The prefix of an integer, `':'`. -/
def INTEGER : Byte := 58
/-- The prefix of a bulk string, `'$'`. -/
def BULK : Byte := 36
/-- The prefix of an array, `'*'`. -/
def ARRAY : Byte := 42
/-- Carriage return, `'\r'`. -/
def CR : Byte := 13
/-- Line feed, `'\n'`. -/
def LF : Byte := 10

/-- The errors the decoder can return: `io.EOF` from the byte source and the
two `strconv` errors of `ParseInt`. -/
inductive Err where
  | EOF
  | ErrSyntax
  | ErrRange
  deriving DecidableEq, Repr

/-! ## The value model -/

/-- The Go struct `Value`.  `Value.mk "" [] 0 [] []` is the Go literal
`Value{}`, every field at its zero value. -/
structure Value where
  typ : String
  str : List Byte
  num : Int
  bulk : List Byte
  array : List Value

/-- The Go literal `Value{}`. -/
def Value.zero : Value := ⟨"", [], 0, [], []⟩

mutual
/-- Equality of two values is decidable, field by field. -/
def Value.decEq : (v w : Value) → Decidable (v = w)
  | ⟨t1, s1, n1, b1, a1⟩, ⟨t2, s2, n2, b2, a2⟩ =>
    if ht : t1 = t2 then
      if hs : s1 = s2 then
        if hn : n1 = n2 then
          if hb : b1 = b2 then
            match Value.decEqList a1 a2 with
            | isTrue ha => isTrue (by rw [ht, hs, hn, hb, ha])
            | isFalse ha => isFalse (fun h => ha (Value.mk.inj h).2.2.2.2)
          else isFalse (fun h => hb (Value.mk.inj h).2.2.2.1)
        else isFalse (fun h => hn (Value.mk.inj h).2.2.1)
      else isFalse (fun h => hs (Value.mk.inj h).2.1)
    else isFalse (fun h => ht (Value.mk.inj h).1)
/-- Equality of two slices of values is decidable, element by element. -/
def Value.decEqList : (vs ws : List Value) → Decidable (vs = ws)
  | [], [] => isTrue rfl
  | v :: vs, w :: ws =>
    match Value.decEq v w with
    | isTrue h1 =>
      match Value.decEqList vs ws with
      | isTrue h2 => isTrue (by rw [h1, h2])
      | isFalse h2 => isFalse (fun h => h2 (List.cons.inj h).2)
    | isFalse h1 => isFalse (fun h => h1 (List.cons.inj h).1)
  | [], _ :: _ => isFalse (fun h => List.noConfusion h)
  | _ :: _, [] => isFalse (fun h => List.noConfusion h)
end

instance : DecidableEq Value := Value.decEq

/-! ## `strconv` -/

/-- The ASCII digit of `d < 10`. -/
def digitByte (d : Nat) : Byte := UInt8.ofNat (48 + d)

/-- The decimal digits of `n`, most significant first; `fuel` bounds the number
of digits. -/
def formatDigits : Nat → Nat → List Byte
  | 0, _ => []
  | fuel + 1, n =>
    if n < 10 then [digitByte n] else formatDigits fuel (n / 10) ++ [digitByte (n % 10)]

/-- The decimal representation of a natural number (`strconv.FormatUint(n, 10)`). -/
def FormatUint (n : Nat) : List Byte := formatDigits (n + 1) n

/-- `strconv.Itoa`: the decimal representation, with a leading `'-'` for a
negative number. -/
def Itoa (i : Int) : List Byte :=
  if i < 0 then 45 :: FormatUint i.natAbs else FormatUint i.natAbs

/-- The largest `uint64`. -/
def maxUint64 : Nat := 2 ^ 64 - 1

/-- The digit loop of `strconv.ParseUint(s, 10, 64)`: `n` is the number read so
far.  A byte that is not a decimal digit is a syntax error (result `0`);
leaving the `uint64` range is a range error (result `maxUint64`), reported at
the digit where it happens. -/
def parseUintLoop : List Byte → Nat → Nat × Option Err
  | [], n => (n, none)
  | c :: cs, n =>
    if 48 ≤ c.toNat ∧ c.toNat ≤ 57 then
      if n ≥ maxUint64 / 10 + 1 then (maxUint64, some .ErrRange)
      else if n * 10 + (c.toNat - 48) > maxUint64 then (maxUint64, some .ErrRange)
      else parseUintLoop cs (n * 10 + (c.toNat - 48))
    else (0, some .ErrSyntax)

/-- `strconv.ParseUint(s, 10, 64)`. -/
def ParseUint (s : List Byte) : Nat × Option Err :=
  if s = [] then (0, some .ErrSyntax) else parseUintLoop s 0

/-- `strconv.ParseInt(s, 10, 64)`: an optional sign, then `ParseUint`, then the
check of the `int64` range (`cutoff = 2 ^ 63`). -/
def ParseInt (s : List Byte) : Int × Option Err :=
  match s with
  | [] => (0, some .ErrSyntax)
  | c :: cs =>
    let neg : Bool := decide (c = 45)
    let s1 := if c = 43 ∨ c = 45 then cs else c :: cs
    let (un, err) := ParseUint s1
    if err ≠ none ∧ err ≠ some .ErrRange then (0, err)
    else if !neg && decide (un ≥ 2 ^ 63) then (2 ^ 63 - 1, some .ErrRange)
    else if neg && decide (un > 2 ^ 63) then (-(2 ^ 63), some .ErrRange)
    else (if neg then -(un : Int) else (un : Int), none)

/-! ## The encoder -/

/-- The method `marshalString`: `'+'`, the text, CR LF. -/
def Value.marshalString (v : Value) : List Byte :=
  STRING :: (v.str ++ [CR, LF])

/-- The method `marshalBulk`: `'$'`, the decimal length of the payload, CR LF,
the payload, CR LF. -/
def Value.marshalBulk (v : Value) : List Byte :=
  BULK :: (Itoa v.bulk.length ++ [CR, LF] ++ v.bulk ++ [CR, LF])

/-- The method `marshalError`: `'-'`, the text, CR LF. -/
def Value.marshalError (v : Value) : List Byte :=
  ERROR :: (v.str ++ [CR, LF])

/-- The method `marshallNull`: the five bytes `$-1\r\n`. -/
def Value.marshallNull (_v : Value) : List Byte :=
  [36, 45, 49, 13, 10]

mutual
/-- The method `Marshal`: the dispatch on `v.typ`.  The `"array"` branch is the
body of `marshalArray` (see `Value.marshalArray` and `Value.Marshal_array`),
written in place so that the recursion is structural. -/
def Value.Marshal : Value → List Byte
  | ⟨typ, str, num, bulk, array⟩ =>
    if typ = "array" then
      ARRAY :: (Itoa array.length ++ [CR, LF] ++ Value.marshalElems array)
    else if typ = "bulk" then Value.marshalBulk ⟨typ, str, num, bulk, array⟩
    else if typ = "string" then Value.marshalString ⟨typ, str, num, bulk, array⟩
    else if typ = "null" then Value.marshallNull ⟨typ, str, num, bulk, array⟩
    else if typ = "error" then Value.marshalError ⟨typ, str, num, bulk, array⟩
    else []
/-- The loop of `marshalArray`: the encodings of the elements, in order. -/
def Value.marshalElems : List Value → List Byte
  | [] => []
  | v :: vs => Value.Marshal v ++ Value.marshalElems vs
end

/-- The method `marshalArray`: `'*'`, the decimal element count, CR LF, then the
encoding of every element in order. -/
def Value.marshalArray (v : Value) : List Byte :=
  ARRAY :: (Itoa v.array.length ++ [CR, LF] ++ Value.marshalElems v.array)

/-! ## `bufio.Reader` -/

/-- The size of the buffer `bufio.NewReader` allocates. -/
def defaultBufSize : Nat := 4096

/-- A `bufio.Reader` over an in-memory byte string or a regular file.
`unread` holds every byte not yet handed to the caller, in stream order: first
the bytes that sit in the buffer, then the bytes the underlying source has not
delivered yet.  `buffered` is the number of bytes in the buffer (`b.w - b.r`),
so the buffer holds the first `buffered` bytes of `unread`. -/
structure Reader where
  unread : List Byte
  buffered : Nat
  deriving DecidableEq, Repr

/-- `bufio.NewReader(rd)`: nothing is buffered yet. -/
def NewReader (rd : List Byte) : Reader := ⟨rd, 0⟩

/-- The number of buffered bytes left after `ReadByte` has returned one byte of
a stream in which `len` bytes were unread: an empty buffer is first filled by
one `Read` of up to `defaultBufSize` bytes on the source. -/
def bufferedAfterByte (buffered len : Nat) : Nat :=
  (if buffered = 0 then min defaultBufSize len else buffered) - 1

/-- `bufio.Reader.ReadByte`: the next byte, or `none` for `io.EOF` when the
buffer is empty and the source has no byte left. -/
def Reader.ReadByte (r : Reader) : Option (Byte × Reader) :=
  match r.unread with
  | [] => none
  | b :: rest => some (b, ⟨rest, bufferedAfterByte r.buffered (rest.length + 1)⟩)

/-- A slice of length `n` made by `make([]byte, n)` whose first bytes were
overwritten by `bs`: the bytes that were not written stay zero. -/
def zeroPad (n : Nat) (bs : List Byte) : List Byte :=
  bs ++ List.replicate (n - bs.length) 0

/-- `bufio.Reader.Read(p)` for a fresh `p` of length `n`; the result is `p`
after the call, and the reader.  "The bytes are taken from at most one Read on
the underlying Reader, hence n may be less than len(p)":
* `len(p) = 0`: nothing happens;
* the buffer is empty and `len(p)` is at least the buffer size: one `Read` of
  the source directly into `p`;
* the buffer is empty and `len(p)` is smaller: one `Read` of the source into
  the buffer, then a copy of what fits;
* the buffer is not empty: a copy of `min(len(p), buffered)` bytes out of the
  buffer, without another `Read` on the source. -/
def Reader.Read (r : Reader) (n : Nat) : List Byte × Reader :=
  if n = 0 then ([], r)
  else if r.buffered = 0 then
    if n ≥ defaultBufSize then
      (zeroPad n (r.unread.take n), ⟨r.unread.drop n, 0⟩)
    else
      (zeroPad n (r.unread.take (min n (min defaultBufSize r.unread.length))),
        ⟨r.unread.drop (min n (min defaultBufSize r.unread.length)),
          min defaultBufSize r.unread.length - min n (min defaultBufSize r.unread.length)⟩)
  else
    (zeroPad n (r.unread.take (min n r.buffered)),
      ⟨r.unread.drop (min n r.buffered), r.buffered - min n r.buffered⟩)

/-! ## The decoder -/

/-- The Go struct `Resp`: a `bufio.Reader`. -/
structure Resp where
  reader : Reader
  deriving DecidableEq, Repr

/-- `NewResp(rd)`. -/
def NewResp (rd : List Byte) : Resp := ⟨NewReader rd⟩

/-- The loop of `readLine`, over the unread bytes `u` of a reader with
`buffered` bytes in its buffer; `line` and `n` are the loop variables.  Every
turn takes one byte with `ReadByte` (see `readLineLoop_step`), appends it to
`line`, and stops as soon as `line` has at least two bytes and the byte before
the last one is CR.  At the end of the stream the result is `(nil, 0, io.EOF)`. -/
def Resp.readLineLoop : List Byte → Nat → List Byte → Nat →
    (List Byte × Nat × Option Err) × Resp
  | [], buffered, _, _ => (([], 0, some .EOF), ⟨⟨[], buffered⟩⟩)
  | b :: rest, buffered, line, n =>
    if (line ++ [b]).length ≥ 2 ∧ (line ++ [b]).get? ((line ++ [b]).length - 2) = some CR then
      (((line ++ [b]).take ((line ++ [b]).length - 2), n + 1, none),
        ⟨⟨rest, bufferedAfterByte buffered (rest.length + 1)⟩⟩)
    else
      Resp.readLineLoop rest (bufferedAfterByte buffered (rest.length + 1)) (line ++ [b]) (n + 1)

/-- The method `readLine`: `(line, n, err)` and the reader after the call. -/
def Resp.readLine (r : Resp) : (List Byte × Nat × Option Err) × Resp :=
  Resp.readLineLoop r.reader.unread r.reader.buffered [] 0

/-- The method `readInteger`: `(x, n, err)` and the reader after the call. -/
def Resp.readInteger (r : Resp) : (Int × Nat × Option Err) × Resp :=
  match Resp.readLine r with
  | ((_, _, some err), r1) => ((0, 0, some err), r1)
  | ((line, n, none), r1) =>
    match ParseInt line with
    | (_, some err) => ((0, n, some err), r1)
    | (i64, none) => ((i64, n, none), r1)

/-- What a call of `Read`, `readArray` or `readBulk` does: it returns a value
and an error (`none` is `nil`) and leaves the reader in a new state, or it
panics.  `diverge` is the answer of `Resp.ReadF` when its recursion bound is
used up; `Resp.Read` never gives it (`Resp.Read_ne_diverge`). -/
inductive Outcome where
  | ret (v : Value) (err : Option Err) (r : Resp)
  | panic
  | diverge
  deriving DecidableEq

/-- The largest size `make([]byte, n)` accepts on a 64-bit platform; a larger or
a negative `n` is the runtime panic `makeslice: len out of range`.  Whether the
runtime can provide an accepted size is a matter of the memory of the process:
`Resp.readBulk` takes it that it can, `Resp.readBulkMem` has both cases. -/
def maxAlloc : Int := 2 ^ 48

/-- The method `readBulk`.  The count and the error of `r.reader.Read(bulk)`
and everything `r.readLine()` returns are dropped by the code, so after a
successful `readInteger` the result is always `(v, nil)`. -/
def Resp.readBulk (r : Resp) : Outcome :=
  match Resp.readInteger r with
  | ((_, _, some err), r1) => .ret ⟨"bulk", [], 0, [], []⟩ (some err) r1
  | ((len, _, none), r1) =>
    if len < 0 ∨ len > maxAlloc then .panic
    else
      .ret ⟨"bulk", [], 0, (r1.reader.Read len.toNat).1, []⟩ none
        (Resp.readLine ⟨(r1.reader.Read len.toNat).2⟩).2

/-- The loop `for i := 0; i < len; i++` of `readArray`, with `k = len - i`
turns still to go; `read` is the method `Read` and `v` the array built so far. -/
def Resp.readArrayLoop (read : Resp → Outcome) : Nat → Value → Resp → Outcome
  | 0, v, r => .ret v none r
  | k + 1, v, r =>
    match read r with
    | .ret val none r1 =>
      Resp.readArrayLoop read k ⟨v.typ, v.str, v.num, v.bulk, v.array ++ [val]⟩ r1
    | .ret _ (some err) r1 => .ret v (some err) r1
    | .panic => .panic
    | .diverge => .diverge

/-- The method `readArray`; `read` is the method `Read`, which it calls for
every element.  A negative `len` runs the loop zero times. -/
def Resp.readArray (read : Resp → Outcome) (r : Resp) : Outcome :=
  match Resp.readInteger r with
  | ((_, _, some err), r1) => .ret ⟨"array", [], 0, [], []⟩ (some err) r1
  | ((len, _, none), r1) => Resp.readArrayLoop read len.toNat ⟨"array", [], 0, [], []⟩ r1

/-- The method `Read` with a bound `fuel` on the depth of the calls of `Read`
inside `readArray`. -/
def Resp.ReadF : Nat → Resp → Outcome
  | 0, _ => .diverge
  | fuel + 1, r =>
    match r.reader.ReadByte with
    | none => .ret Value.zero (some .EOF) r
    | some (_type, rd) =>
      if _type = ARRAY then Resp.readArray (Resp.ReadF fuel) ⟨rd⟩
      else if _type = BULK then Resp.readBulk ⟨rd⟩
      else .ret Value.zero none ⟨rd⟩

/-- The method `Read`.  Every nested call of `Read` has taken at least one more
byte off the stream, so the depth of the calls never exceeds the number of
unread bytes plus one. -/
def Resp.Read (r : Resp) : Outcome :=
  Resp.ReadF (r.reader.unread.length + 1) r

/-! ## The append-only file -/

/-- An open `os.File` on a regular file: the bytes of the file and the offset
of the handle, which `Read`, `Write` and `Seek` share. -/
structure File where
  content : List Byte
  offset : Nat
  deriving DecidableEq, Repr

/-- `os.File.Write(b)` on a handle opened without `O_APPEND`: the bytes go to
the current offset, over whatever the file holds there, and the offset moves
past them.  Writing no byte changes nothing. -/
def File.Write (f : File) (b : List Byte) : File :=
  if b = [] then f
  else ⟨zeroPad f.offset (f.content.take f.offset) ++ b ++ f.content.drop (f.offset + b.length),
    f.offset + b.length⟩

/-- The Go struct `Aof`: its file (the field `rd` is never used and `mu` only
serialises the calls). -/
structure Aof where
  file : File
  deriving DecidableEq, Repr

/-- `NewAof(path)`, where `existing` is what the file at `path` holds (`[]` when
`os.OpenFile` has to create it): the flags are `O_CREATE|O_RDWR`, so the
content is kept and the handle starts at offset 0. -/
def NewAof (existing : List Byte) : Aof := ⟨⟨existing, 0⟩⟩

/-- The method `Aof.Write` when `file.Write` reports no error. -/
def Aof.Write (aof : Aof) (value : Value) : Aof := ⟨aof.file.Write value.Marshal⟩

/-- How `Aof.Read` ends: it returns `err` (`none` is `nil`), or a panic of the
decoder ends it; `diverge` stands for a used-up loop bound. -/
inductive ReplayStatus where
  | returned (err : Option Err)
  | panic
  | diverge
  deriving DecidableEq, Repr

/-- The loop of `Aof.Read`; `calls` lists the values `fn` has been called
with so far.  `io.EOF` ends the loop normally, any other error is returned.
When the decoder panics the call does not return: the reader given in that case
is the one from before the failing `Read` and says nothing about the reads
that `Read` made on the file before it panicked. -/
def Aof.readLoop : Nat → Resp → List Value → List Value × ReplayStatus × Resp
  | 0, reader, calls => (calls, .diverge, reader)
  | fuel + 1, reader, calls =>
    match reader.Read with
    | .ret value none r1 => Aof.readLoop fuel r1 (calls ++ [value])
    | .ret _ (some .EOF) r1 => (calls, .returned none, r1)
    | .ret _ (some err) r1 => (calls, .returned (some err), r1)
    | .panic => (calls, .panic, reader)
    | .diverge => (calls, .diverge, reader)

/-- The method `Aof.Read`: the values `fn` is called with, in order, how the
call ends, and the `Aof` afterwards.  `Seek(0, io.SeekStart)` puts the handle
at the start of the file, a new `Resp` reads from there, and every successful
`Read` takes at least one byte, so the loop runs at most once per byte and once
more.  When the call returns, the handle ends where the reads of the
`bufio.Reader` on the file stopped: after every byte that is not still unread
outside the buffer.  After a panic of the decoder the offset given is not that
of the handle (see `Aof.readLoop`). -/
def Aof.Read (aof : Aof) : List Value × ReplayStatus × Aof :=
  match Aof.readLoop (aof.file.content.length + 1) (NewResp aof.file.content) [] with
  | (calls, status, reader) =>
    (calls, status,
      ⟨⟨aof.file.content,
        aof.file.content.length - (reader.reader.unread.length - reader.reader.buffered)⟩⟩)

/-! ## Auxiliary definitions for the statements -/

/-- The bytes in the buffer once `ReadByte` has made sure it is not empty. -/
def filled (buffered len : Nat) : Nat :=
  if buffered = 0 then min defaultBufSize len else buffered

/-- The number of buffered bytes after `m` calls of `ReadByte` on a stream in
which `len` bytes were unread. -/
def bufferedAfter : Nat → Nat → Nat → Nat
  | buffered, _, 0 => buffered
  | buffered, len, m + 1 => bufferedAfter (bufferedAfterByte buffered len) (len - 1) m

/-- A bulk string with payload `p`; the fields a bulk string does not use are
zero. -/
def Value.Bulk (p : List Byte) : Value := ⟨"bulk", [], 0, p, []⟩

/-- An array with the elements `vs`; the fields an array does not use are zero. -/
def Value.Array (vs : List Value) : Value := ⟨"array", [], 0, [], vs⟩

/-- A simple string with the text `s`. -/
def Value.SimpleString (s : List Byte) : Value := ⟨"string", s, 0, [], []⟩

/-- An error with the message `s`. -/
def Value.Error (s : List Byte) : Value := ⟨"error", s, 0, [], []⟩

mutual
/-- The values built from bulk strings and arrays only, to any depth, with the
unused fields of every node at their zero values: what `Value.Bulk` and
`Value.Array` build. -/
def Value.isBulkArray : Value → Bool
  | ⟨typ, str, num, bulk, array⟩ =>
    (decide (typ = "bulk") && decide (str = []) && decide (num = 0) && array.isEmpty)
      || (decide (typ = "array") && decide (str = []) && decide (num = 0)
        && decide (bulk = []) && Value.allBulkArray array)
/-- Every value of the list is built from bulk strings and arrays only. -/
def Value.allBulkArray : List Value → Bool
  | [] => true
  | v :: vs => Value.isBulkArray v && Value.allBulkArray vs
end

/-- The stream holds no CR that is followed by another byte: it ends before
`readLine` can complete a line. -/
def noLineEnd : List Byte → Bool
  | [] => true
  | [_] => true
  | b :: c :: rest => b != CR && noLineEnd (c :: rest)

/-- Writing the values `vs` to the log with `Aof.Write`, one call after the
other, in order. -/
def Aof.writeAll (aof : Aof) (vs : List Value) : Aof := vs.foldl Aof.Write aof

/-- The outcome is not `diverge`, a returned reader has at most `N` unread
bytes, and fewer than `N` when no error is returned. -/
def Outcome.progress (N : Nat) : Outcome → Prop
  | .ret _ none r => r.reader.unread.length < N
  | .ret _ (some _) r => r.reader.unread.length ≤ N
  | .panic => True
  | .diverge => False

/-- The outcome is not `diverge`, and a returned reader has at most `N` unread
bytes. -/
def Outcome.within (N : Nat) : Outcome → Prop
  | .ret _ _ r => r.reader.unread.length ≤ N
  | .panic => True
  | .diverge => False

/-! ## The specification's reading of a length header -/

/-- The byte is one of the decimal digits `'0' .. '9'`. -/
def isDecimalDigit (b : Byte) : Bool := decide (48 ≤ b.toNat ∧ b.toNat ≤ 57)

/-- The number a string of decimal digits denotes in base 10. -/
def decimalValue (ds : List Byte) : Nat :=
  ds.foldl (fun acc b => acc * 10 + (b.toNat - 48)) 0

/-- The specification's "valid base-10 signed 64-bit integer", written from
its words and not from `strconv`: an optional sign `'+'` or `'-'`, then one or
more decimal digits, denoting a number from `-2^63` to `2^63 - 1`.  The result
is that number, or `none` when the text is not such an integer. -/
def specInt64 (s : List Byte) : Option Int :=
  match s with
  | [] => none
  | c :: cs =>
    if (if c = 43 ∨ c = 45 then cs else c :: cs) ≠ [] ∧
        (if c = 43 ∨ c = 45 then cs else c :: cs).all isDecimalDigit = true ∧
        -(2 ^ 63 : Int) ≤
          (if c = 45 then -(decimalValue (if c = 43 ∨ c = 45 then cs else c :: cs) : Int)
            else (decimalValue (if c = 43 ∨ c = 45 then cs else c :: cs) : Int)) ∧
        (if c = 45 then -(decimalValue (if c = 43 ∨ c = 45 then cs else c :: cs) : Int)
            else (decimalValue (if c = 43 ∨ c = 45 then cs else c :: cs) : Int)) < 2 ^ 63 then
      some (if c = 45 then -(decimalValue (if c = 43 ∨ c = 45 then cs else c :: cs) : Int)
        else (decimalValue (if c = 43 ∨ c = 45 then cs else c :: cs) : Int))
    else none

/-! ## Predicates for the claims about null values and panics -/

mutual
/-- No node of the value, at any depth, has the `typ` `"null"`. -/
def Value.noNull : Value → Bool
  | ⟨typ, _, _, _, array⟩ => decide (typ ≠ "null") && Value.noNullList array
/-- No value of the list has a node with the `typ` `"null"`. -/
def Value.noNullList : List Value → Bool
  | [] => true
  | v :: vs => Value.noNull v && Value.noNullList vs
end

/-- A value the call returns, if it returns one, has no null node. -/
def Outcome.noNull : Outcome → Prop
  | .ret v _ _ => Value.noNull v = true
  | .panic => True
  | .diverge => True

/-! ## The decoder with the memory of the process -/

/-- How a call of the decoder ends when the memory of the process is taken into
account: as the decoder above says (`done`), or with the runtime's
`fatal error: out of memory`, which ends the process and is not a panic. -/
inductive Run where
  | done (o : Outcome)
  | fatal
  deriving DecidableEq

/-- The method `readBulk` with the allocation `make([]byte, len)` spelled out;
`canAlloc n` says whether the runtime can provide `n` bytes.  A length below 0
or above `maxAlloc` is the panic of `Resp.readBulk`; a length in that range that
the runtime cannot provide ends the process; everything else is
`Resp.readBulk`.  The second component lists the length the call has parsed
from its `'$'` header, if `readInteger` returned one. -/
def Resp.readBulkMem (canAlloc : Nat → Bool) (r : Resp) : Run × List Int :=
  match Resp.readInteger r with
  | ((_, _, some _), _) => (.done (Resp.readBulk r), [])
  | ((len, _, none), _) =>
    if 0 ≤ len ∧ len ≤ maxAlloc ∧ canAlloc len.toNat = false then (.fatal, [len])
    else (.done (Resp.readBulk r), [len])

/-- The loop of `readArray` as in `Resp.readArrayLoop`, for a `read` that may
end the process; `hs` lists the `'$'` lengths parsed so far. -/
def Resp.readArrayLoopMem (read : Resp → Run × List Int) :
    Nat → Value → Resp → List Int → Run × List Int
  | 0, v, r, hs => (.done (.ret v none r), hs)
  | k + 1, v, r, hs =>
    match read r with
    | (.done (.ret val none r1), hs1) =>
      Resp.readArrayLoopMem read k ⟨v.typ, v.str, v.num, v.bulk, v.array ++ [val]⟩ r1
        (hs ++ hs1)
    | (.done (.ret _ (some err) r1), hs1) => (.done (.ret v (some err) r1), hs ++ hs1)
    | (.done .panic, hs1) => (.done .panic, hs ++ hs1)
    | (.done .diverge, hs1) => (.done .diverge, hs ++ hs1)
    | (.fatal, hs1) => (.fatal, hs ++ hs1)

/-- The method `readArray` as in `Resp.readArray`, for a `read` that may end the
process. -/
def Resp.readArrayMem (read : Resp → Run × List Int) (r : Resp) : Run × List Int :=
  match Resp.readInteger r with
  | ((_, _, some err), r1) => (.done (.ret ⟨"array", [], 0, [], []⟩ (some err) r1), [])
  | ((len, _, none), r1) =>
    Resp.readArrayLoopMem read len.toNat ⟨"array", [], 0, [], []⟩ r1 []

/-- The method `Read` as in `Resp.ReadF`, with `readBulkMem` for `readBulk`: how
the call ends, and the lengths of all the `'$'` headers `readBulk` has parsed
during the call, in order. -/
def Resp.ReadMemF (canAlloc : Nat → Bool) : Nat → Resp → Run × List Int
  | 0, _ => (.done .diverge, [])
  | fuel + 1, r =>
    match r.reader.ReadByte with
    | none => (.done (.ret Value.zero (some .EOF) r), [])
    | some (_type, rd) =>
      if _type = ARRAY then Resp.readArrayMem (Resp.ReadMemF canAlloc fuel) ⟨rd⟩
      else if _type = BULK then Resp.readBulkMem canAlloc ⟨rd⟩
      else (.done (.ret Value.zero none ⟨rd⟩), [])

/-- The method `Read` in a process whose runtime can allocate the sizes
`canAlloc` accepts, with the same recursion bound as `Resp.Read`. -/
def Resp.ReadMem (canAlloc : Nat → Bool) (r : Resp) : Run × List Int :=
  Resp.ReadMemF canAlloc (r.reader.unread.length + 1) r

/-- The length is one `make([]byte, len)` accepts and the runtime can provide. -/
def allocOk (canAlloc : Nat → Bool) (len : Int) : Prop :=
  0 ≤ len ∧ len ≤ maxAlloc ∧ canAlloc len.toNat = true

/-- The run `e` with the parsed `'$'` lengths `hs` is the outcome `o` of the
decoder without memory, as far as the memory allows, and `hs` accounts for how
it ends: a panic comes with a last length that is negative or above `maxAlloc`,
the end of the process with a last length the runtime cannot provide, and all
the other lengths are fine. -/
def Run.agrees (canAlloc : Nat → Bool) (o : Outcome) : Run × List Int → Prop
  | (.done o', hs) =>
    o' = o ∧
      ((o = .panic ∧ ∃ init last, hs = init ++ [last] ∧
          (∀ len ∈ init, allocOk canAlloc len) ∧ (last < 0 ∨ last > maxAlloc)) ∨
        (o ≠ .panic ∧ ∀ len ∈ hs, allocOk canAlloc len))
  | (.fatal, hs) =>
    ∃ init last, hs = init ++ [last] ∧ (∀ len ∈ init, allocOk canAlloc len) ∧
      0 ≤ last ∧ last ≤ maxAlloc ∧ canAlloc last.toNat = false

/-! ## `strconv`: parsing what `Itoa` prints -/

theorem digitByte_toNat (d : Nat) (h : d < 10) : (digitByte d).toNat = 48 + d := by
  interval_cases d <;> rfl

theorem formatDigits_fuel (f1 : Nat) : ∀ f2 n, n < f1 → n < f2 →
    formatDigits f1 n = formatDigits f2 n := by
  induction f1 with
  | zero => intro f2 n h; omega
  | succ f ih =>
    intro f2 n h h'
    cases f2 with
    | zero => omega
    | succ g =>
      simp only [formatDigits]
      by_cases h10 : n < 10
      · simp [h10]
      · simp only [h10, if_false]
        rw [ih g (n / 10) (by omega) (by omega)]

theorem FormatUint_small (n : Nat) (h : n < 10) : FormatUint n = [digitByte n] := by
  simp [FormatUint, formatDigits, h]

theorem FormatUint_big (n : Nat) (h : ¬ n < 10) :
    FormatUint n = FormatUint (n / 10) ++ [digitByte (n % 10)] := by
  have h2 : n / 10 < n := by omega
  simp only [FormatUint]
  rw [formatDigits]
  simp only [h, if_false]
  rw [formatDigits_fuel n (n / 10 + 1) (n / 10) h2 (by omega)]

/-- Every byte `FormatUint` prints is a decimal digit. -/
theorem FormatUint_digits (n : Nat) : ∀ b ∈ FormatUint n, 48 ≤ b.toNat ∧ b.toNat ≤ 57 := by
  induction n using Nat.strong_induction_on with
  | _ n ih =>
    by_cases h : n < 10
    · rw [FormatUint_small n h]
      intro b hb
      simp only [List.mem_singleton] at hb
      subst hb
      rw [digitByte_toNat n h]; omega
    · rw [FormatUint_big n h]
      intro b hb
      rcases List.mem_append.1 hb with hb | hb
      · exact ih (n / 10) (by omega) b hb
      · simp only [List.mem_singleton] at hb
        subst hb
        rw [digitByte_toNat _ (Nat.mod_lt _ (by decide))]; omega

theorem FormatUint_ne_nil (n : Nat) : FormatUint n ≠ [] := by
  by_cases h : n < 10
  · rw [FormatUint_small n h]; simp
  · rw [FormatUint_big n h]; simp

theorem parseUintLoop_append (xs ys : List Byte) : ∀ acc,
    parseUintLoop (xs ++ ys) acc =
      if (parseUintLoop xs acc).2 = none then parseUintLoop ys (parseUintLoop xs acc).1
      else parseUintLoop xs acc := by
  induction xs with
  | nil => intro acc; simp [parseUintLoop]
  | cons c cs ih =>
    intro acc
    simp only [List.cons_append, parseUintLoop]
    split_ifs <;> simp_all

theorem parseUintLoop_FormatUint (n : Nat) (h : n ≤ maxUint64) :
    parseUintLoop (FormatUint n) 0 = (n, none) := by
  induction n using Nat.strong_induction_on with
  | _ n ih =>
    by_cases h10 : n < 10
    · rw [FormatUint_small n h10]
      simp only [parseUintLoop, digitByte_toNat n h10]
      simp only [maxUint64] at h ⊢
      rw [if_pos (by omega), if_neg (by omega), if_neg (by omega)]
      simp
    · rw [FormatUint_big n h10, parseUintLoop_append, ih (n / 10) (by omega) (by omega)]
      simp only [parseUintLoop, digitByte_toNat _ (Nat.mod_lt n (by decide : 10 > 0)), if_true]
      simp only [maxUint64] at h ⊢
      rw [if_pos (by omega), if_neg (by omega), if_neg (by omega)]
      simp only [Nat.add_sub_cancel_left]
      congr 1
      omega

theorem ParseInt_Itoa (n : Nat) (h : n < 2 ^ 63) : ParseInt (Itoa (n : Int)) = ((n : Int), none) := by
  have hI : Itoa (n : Int) = FormatUint n := by
    simp [Itoa]
  rw [hI]
  have hne := FormatUint_ne_nil n
  have hd := FormatUint_digits n
  have hp := parseUintLoop_FormatUint n (by simp only [maxUint64]; omega)
  cases hf : FormatUint n with
  | nil => exact absurd hf hne
  | cons c cs =>
    rw [hf] at hd hp
    have hc := hd c (List.mem_cons_self _ _)
    have h43 : c ≠ 43 := by
      intro h; subst h; revert hc; decide
    have h45 : c ≠ 45 := by
      intro h; subst h; revert hc; decide
    simp only [ParseInt, h43, h45, or_self, if_false, ParseUint, hp, decide_False]
    simp
    omega



/-! ## The reader -/

theorem bufferedAfterByte_eq (k len : Nat) : bufferedAfterByte k len = filled k len - 1 := rfl

theorem bufferedAfterByte_pos (k len : Nat) (h : 0 < k) : bufferedAfterByte k len = k - 1 := by
  simp only [bufferedAfterByte]
  rw [if_neg (by omega)]

theorem bufferedAfter_le (m : Nat) : ∀ k len, m ≤ k → bufferedAfter k len m = k - m := by
  induction m with
  | zero => intro k len _; rfl
  | succ m ih =>
    intro k len h
    rw [bufferedAfter, bufferedAfterByte_pos k len (by omega), ih _ _ (by omega)]
    omega

/-! ## `readLine` and `readInteger` -/

/-- One turn of the loop of `readLine` is one `ReadByte`. -/
theorem Resp.readLineLoop_step (u : List Byte) (k : Nat) (line : List Byte) (n : Nat) :
    Resp.readLineLoop u k line n =
      match Reader.ReadByte ⟨u, k⟩ with
      | none => (([], 0, some .EOF), ⟨⟨[], k⟩⟩)
      | some (b, rd) =>
        if (line ++ [b]).length ≥ 2 ∧ (line ++ [b]).get? ((line ++ [b]).length - 2) = some CR then
          (((line ++ [b]).take ((line ++ [b]).length - 2), n + 1, none), ⟨rd⟩)
        else Resp.readLineLoop rd.unread rd.buffered (line ++ [b]) (n + 1) := by
  cases u <;> rfl

theorem Resp.readLineLoop_cons (b : Byte) (rest : List Byte) (k : Nat) (line : List Byte)
    (n : Nat) :
    Resp.readLineLoop (b :: rest) k line n =
      if (line ++ [b]).length ≥ 2 ∧ (line ++ [b]).get? ((line ++ [b]).length - 2) = some CR then
        (((line ++ [b]).take ((line ++ [b]).length - 2), n + 1, none),
          ⟨⟨rest, bufferedAfterByte k (rest.length + 1)⟩⟩)
      else
        Resp.readLineLoop rest (bufferedAfterByte k (rest.length + 1)) (line ++ [b]) (n + 1) :=
  rfl

/-- The stop test of `readLine`, taken after `b` was appended to `line`, holds
exactly when the last byte of `line` is CR. -/
theorem readLine_stop_iff (line : List Byte) (b : Byte) :
    ((line ++ [b]).length ≥ 2 ∧ (line ++ [b]).get? ((line ++ [b]).length - 2) = some CR) ↔
      line.getLast? = some CR := by
  induction line using List.reverseRecOn with
  | nil => simp
  | append_singleton l c _ =>
    have h1 : (l ++ [c] ++ [b]).length - 2 = l.length := by simp
    rw [h1]
    have h2 : (l ++ [c] ++ [b]).get? l.length = some c := by
      rw [List.append_assoc, List.get?_eq_getElem?, List.getElem?_append_right (Nat.le_refl _)]
      simp
    rw [h2, List.getLast?_concat]
    simp

theorem readLine_take (l : List Byte) (c b : Byte) :
    (l ++ [c] ++ [b]).take ((l ++ [c] ++ [b]).length - 2) = l := by
  have h1 : (l ++ [c] ++ [b]).length - 2 = l.length := by simp
  rw [h1, List.append_assoc, List.take_left]

/-- The method `readLine` on a stream that starts with `l`, CR and one more byte
`x`, where `l` holds no CR: the line is `l`, and `l`, the CR and `x` are taken
off the stream, whatever `x` is. -/
theorem Resp.readLineLoop_line (l : List Byte) (x : Byte) (rest : List Byte) :
    ∀ (line : List Byte) (n k : Nat), (∀ b ∈ l, b ≠ CR) → line.getLast? ≠ some CR →
      Resp.readLineLoop (l ++ CR :: x :: rest) k line n =
        ((line ++ l, n + (l.length + 2), none),
          ⟨⟨rest, bufferedAfter k (l.length + 2 + rest.length) (l.length + 2)⟩⟩) := by
  induction l with
  | nil =>
    intro line n k _ hline
    have hstop : ¬ ((line ++ [CR]).length ≥ 2 ∧
        (line ++ [CR]).get? ((line ++ [CR]).length - 2) = some CR) := by
      rw [readLine_stop_iff]; exact hline
    have hstop2 : ((line ++ [CR] ++ [x]).length ≥ 2 ∧
        (line ++ [CR] ++ [x]).get? ((line ++ [CR] ++ [x]).length - 2) = some CR) := by
      rw [readLine_stop_iff]; simp
    rw [List.nil_append, Resp.readLineLoop_cons, if_neg hstop, Resp.readLineLoop_cons,
      if_pos hstop2, readLine_take]
    simp only [List.append_nil, List.length_nil, List.length_cons, bufferedAfter, Nat.zero_add]
    have e1 : 2 + rest.length = rest.length + 1 + 1 := by omega
    have e2 : rest.length + 1 + 1 - 1 = rest.length + 1 := by omega
    rw [e1, e2, Nat.add_assoc n 1 1]
  | cons b l ih =>
    intro line n k hl hline
    have hb : b ≠ CR := hl b (List.mem_cons_self _ _)
    have hstop : ¬ ((line ++ [b]).length ≥ 2 ∧
        (line ++ [b]).get? ((line ++ [b]).length - 2) = some CR) := by
      rw [readLine_stop_iff]; exact hline
    have hline2 : (line ++ [b]).getLast? ≠ some CR := by
      rw [List.getLast?_concat]
      simpa using hb
    rw [List.cons_append, Resp.readLineLoop_cons, if_neg hstop,
      ih (line ++ [b]) (n + 1) _ (fun c hc => hl c (List.mem_cons_of_mem _ hc)) hline2]
    simp only [List.append_assoc, List.singleton_append, List.length_cons, List.length_append,
      bufferedAfter]
    have e1 : n + 1 + (l.length + 2) = n + (l.length + 1 + 2) := by omega
    have e2 : l.length + ((rest.length + 1) + 1) + 1 = l.length + 1 + 2 + rest.length := by omega
    have e3 : l.length + 1 + 2 + rest.length - 1 = l.length + 2 + rest.length := by omega
    rw [e1, e2, e3]


/-! ## Values built from bulk strings and arrays -/

theorem Value.allBulkArray_iff (vs : List Value) :
    Value.allBulkArray vs = true ↔ ∀ e ∈ vs, Value.isBulkArray e = true := by
  induction vs with
  | nil => simp [Value.allBulkArray]
  | cons v vs ih => simp [Value.allBulkArray, ih]

theorem Value.isBulkArray_Bulk (p : List Byte) : (Value.Bulk p).isBulkArray = true := by
  simp [Value.Bulk, Value.isBulkArray]

theorem Value.isBulkArray_Array (vs : List Value) :
    (Value.Array vs).isBulkArray = true ↔ ∀ e ∈ vs, Value.isBulkArray e = true := by
  simp [Value.Array, Value.isBulkArray, Value.allBulkArray_iff]

theorem Value.isBulkArray_cases (v : Value) (h : v.isBulkArray = true) :
    (∃ p, v = Value.Bulk p) ∨
      (∃ vs, v = Value.Array vs ∧ ∀ e ∈ vs, Value.isBulkArray e = true) := by
  obtain ⟨typ, str, num, bulk, array⟩ := v
  simp only [Value.isBulkArray, Bool.or_eq_true, Bool.and_eq_true, decide_eq_true_eq,
    List.isEmpty_iff, Value.allBulkArray_iff] at h
  rcases h with ⟨⟨⟨h1, h2⟩, h3⟩, h4⟩ | ⟨⟨⟨⟨h1, h2⟩, h3⟩, h4⟩, h5⟩
  · left; exact ⟨bulk, by simp [Value.Bulk, h1, h2, h3, h4]⟩
  · right; exact ⟨array, by simp [Value.Array, h1, h2, h3, h4], h5⟩

/-- Induction over the values built from bulk strings and arrays. -/
theorem Value.bulkArray_induction {P : Value → Prop} (hb : ∀ p, P (Value.Bulk p))
    (ha : ∀ vs, (∀ e ∈ vs, Value.isBulkArray e = true) → (∀ e ∈ vs, P e) → P (Value.Array vs)) :
    ∀ v, Value.isBulkArray v = true → P v := by
  intro v
  refine @Value.rec (fun v => Value.isBulkArray v = true → P v)
    (fun vs => ∀ e ∈ vs, Value.isBulkArray e = true → P e) ?_ ?_ ?_ v
  · intro typ str num bulk array ih h
    rcases Value.isBulkArray_cases _ h with ⟨p, hp⟩ | ⟨vs, hvs, hall⟩
    · rw [hp]; exact hb p
    · rw [hvs]
      have harr : array = vs := by
        simp only [Value.Array, Value.mk.injEq] at hvs; exact hvs.2.2.2.2
      subst harr
      exact ha array hall (fun e he => ih e he (hall e he))
  · intro e he; cases he
  · intro hd tl ih1 ih2 e he
    rcases List.mem_cons.1 he with h | h
    · subst h; exact ih1
    · exact ih2 e h

theorem Value.Marshal_Bulk (p : List Byte) :
    (Value.Bulk p).Marshal = BULK :: (Itoa p.length ++ [CR, LF] ++ p ++ [CR, LF]) := by
  simp [Value.Bulk, Value.Marshal, Value.marshalBulk]

theorem Value.Marshal_Array (vs : List Value) :
    (Value.Array vs).Marshal =
      ARRAY :: (Itoa vs.length ++ [CR, LF] ++ Value.marshalElems vs) := by
  simp [Value.Array, Value.Marshal]

/-- The `"array"` branch of `Marshal` is the method `marshalArray`. -/
theorem Value.Marshal_array (v : Value) (h : v.typ = "array") :
    v.Marshal = v.marshalArray := by
  obtain ⟨typ, str, num, bulk, array⟩ := v
  simp only at h
  subst h
  simp [Value.Marshal, Value.marshalArray]

theorem Value.marshalElems_cons (v : Value) (vs : List Value) :
    Value.marshalElems (v :: vs) = v.Marshal ++ Value.marshalElems vs := by
  simp [Value.marshalElems]

theorem Itoa_ofNat (n : Nat) : Itoa (n : Int) = FormatUint n := by
  simp [Itoa]

theorem Itoa_length_pos (n : Nat) : 0 < (Itoa (n : Int)).length := by
  rw [Itoa_ofNat]
  exact List.length_pos.2 (FormatUint_ne_nil n)

theorem Value.Marshal_length_pos (v : Value) (h : v.isBulkArray = true) :
    4 ≤ v.Marshal.length := by
  rcases Value.isBulkArray_cases v h with ⟨p, hp⟩ | ⟨vs, hvs, _⟩
  · subst hp
    have h1 := Itoa_length_pos p.length
    rw [Value.Marshal_Bulk]
    simp only [List.length_cons, List.length_append, List.length_nil]
    omega
  · subst hvs
    have h1 := Itoa_length_pos vs.length
    rw [Value.Marshal_Array]
    simp only [List.length_cons, List.length_append, List.length_nil]
    omega

theorem Value.marshalElems_length (vs : List Value) (h : ∀ e ∈ vs, Value.isBulkArray e = true) :
    vs.length ≤ (Value.marshalElems vs).length := by
  induction vs with
  | nil => simp
  | cons v vs ih =>
    have h1 := Value.Marshal_length_pos v (h v (List.mem_cons_self _ _))
    have h2 := ih (fun e he => h e (List.mem_cons_of_mem _ he))
    rw [Value.marshalElems_cons]
    simp only [List.length_cons, List.length_append]
    omega

/-! ## Decoding inside the buffer -/

theorem Itoa_no_CR (n : Nat) : ∀ b ∈ Itoa (n : Int), b ≠ CR := by
  intro b hb h
  rw [Itoa_ofNat] at hb
  have := FormatUint_digits n b hb
  subst h
  revert this
  decide

/-- The method `readInteger` on a stream that starts with the decimal digits of
`n`, CR and one more byte. -/
theorem Resp.readInteger_Itoa (n : Nat) (hn : n < 2 ^ 63) (x : Byte) (rest : List Byte)
    (k : Nat) :
    Resp.readInteger ⟨⟨Itoa (n : Int) ++ CR :: x :: rest, k⟩⟩ =
      (((n : Int), (Itoa (n : Int)).length + 2, none),
        ⟨⟨rest, bufferedAfter k ((Itoa (n : Int)).length + 2 + rest.length)
          ((Itoa (n : Int)).length + 2)⟩⟩) := by
  simp only [Resp.readInteger, Resp.readLine]
  rw [Resp.readLineLoop_line _ x rest [] 0 k (Itoa_no_CR n) (by simp)]
  simp only [List.nil_append, ParseInt_Itoa n hn, Nat.zero_add]

/-- `bufio.Reader.Read` when the buffer holds all the bytes asked for. -/
theorem Reader.Read_buffered (p rest : List Byte) (k : Nat) (h : p.length ≤ k) :
    Reader.Read ⟨p ++ rest, k⟩ p.length = (p, ⟨rest, k - p.length⟩) := by
  unfold Reader.Read
  by_cases h0 : p.length = 0
  · have : p = [] := List.length_eq_zero.1 h0
    subst this
    simp
  · have hk : ¬ k = 0 := by omega
    simp only [h0, hk, if_false, Nat.min_eq_left h, List.take_left, List.drop_left, zeroPad,
      Nat.sub_self, List.replicate_zero, List.append_nil]

/-- The method `readBulk` on the rest of a bulk frame that lies in the buffer. -/
theorem Resp.readBulk_frame (p rest : List Byte) (k : Nat) (hk : k ≤ defaultBufSize)
    (h : (Itoa (p.length : Int)).length + 2 + p.length + 2 ≤ k) :
    Resp.readBulk ⟨⟨Itoa (p.length : Int) ++ [CR, LF] ++ p ++ [CR, LF] ++ rest, k⟩⟩ =
      .ret (Value.Bulk p) none
        ⟨⟨rest, k - ((Itoa (p.length : Int)).length + 2 + p.length + 2)⟩⟩ := by
  have hp : p.length < 2 ^ 63 := by
    simp only [defaultBufSize] at hk; omega
  have hs : Itoa (p.length : Int) ++ [CR, LF] ++ p ++ [CR, LF] ++ rest =
      Itoa (p.length : Int) ++ CR :: LF :: (p ++ ([] ++ CR :: LF :: rest)) := by simp
  rw [hs]
  simp only [Resp.readBulk, Resp.readInteger_Itoa p.length hp]
  rw [bufferedAfter_le _ _ _ (by omega)]
  have hneg : ¬ ((p.length : Int) < 0 ∨ (p.length : Int) > maxAlloc) := by
    simp only [maxAlloc, defaultBufSize] at hk ⊢
    omega
  rw [if_neg hneg]
  simp only [Int.toNat_ofNat]
  rw [Reader.Read_buffered p _ _ (by omega)]
  simp only [Resp.readLine]
  rw [Resp.readLineLoop_line [] LF rest [] 0 _ (by simp) (by simp)]
  rw [bufferedAfter_le _ _ _ (by simp; omega)]
  simp only [Value.Bulk, List.length_nil, Nat.zero_add]
  congr 3
  omega

theorem Value.Marshal_le_marshalElems (vs : List Value) :
    ∀ e ∈ vs, e.Marshal.length ≤ (Value.marshalElems vs).length := by
  induction vs with
  | nil => intro e he; cases he
  | cons v vs ih =>
    intro e he
    rw [Value.marshalElems_cons, List.length_append]
    rcases List.mem_cons.1 he with h | h
    · subst h; omega
    · have := ih e h; omega

theorem filled_pos (k len : Nat) (h : 0 < k) : filled k len = k := by
  simp only [filled]
  rw [if_neg (by omega)]

theorem filled_le (k len : Nat) (h : k ≤ defaultBufSize) : filled k len ≤ defaultBufSize := by
  simp only [filled]
  split_ifs
  · exact Nat.min_le_left _ _
  · exact h

/-- The loop of `readArray` over the encodings of `vs`, when `read` decodes
every element of `vs` that lies in the buffer: after `vs.length` turns the
elements are appended and the loop goes on behind them. -/
theorem Resp.readArrayLoop_elems_more (read : Resp → Outcome) (vs : List Value) :
    (∀ e ∈ vs, ∀ (rest : List Byte) (k : Nat), k ≤ defaultBufSize → e.Marshal.length ≤ k →
      read ⟨⟨e.Marshal ++ rest, k⟩⟩ = .ret e none ⟨⟨rest, k - e.Marshal.length⟩⟩) →
    ∀ (j : Nat) (v0 : Value) (rest : List Byte) (k : Nat), k ≤ defaultBufSize →
      (Value.marshalElems vs).length ≤ k →
      Resp.readArrayLoop read (vs.length + j) v0 ⟨⟨Value.marshalElems vs ++ rest, k⟩⟩ =
        Resp.readArrayLoop read j ⟨v0.typ, v0.str, v0.num, v0.bulk, v0.array ++ vs⟩
          ⟨⟨rest, k - (Value.marshalElems vs).length⟩⟩ := by
  induction vs with
  | nil =>
    intro _ j v0 rest k _ _
    obtain ⟨t, s, n, b, a⟩ := v0
    simp [Value.marshalElems]
  | cons e vs ih =>
    intro hread j v0 rest k hk hlen
    rw [Value.marshalElems_cons, List.length_append] at hlen
    have hc : (e :: vs).length + j = (vs.length + j) + 1 := by
      simp only [List.length_cons]; omega
    rw [Value.marshalElems_cons, hc, Resp.readArrayLoop, List.append_assoc,
      hread e (List.mem_cons_self _ _) _ k hk (by omega)]
    simp only
    rw [ih (fun e' he' => hread e' (List.mem_cons_of_mem _ he')) j _ rest _ (by omega) (by omega)]
    simp only [List.append_assoc, List.singleton_append, List.length_append]
    congr 3
    omega

/-- The loop of `readArray` run exactly once per element of `vs`. -/
theorem Resp.readArrayLoop_elems (read : Resp → Outcome) (vs : List Value)
    (hread : ∀ e ∈ vs, ∀ (rest : List Byte) (k : Nat), k ≤ defaultBufSize →
      e.Marshal.length ≤ k →
      read ⟨⟨e.Marshal ++ rest, k⟩⟩ = .ret e none ⟨⟨rest, k - e.Marshal.length⟩⟩)
    (v0 : Value) (rest : List Byte) (k : Nat) (hk : k ≤ defaultBufSize)
    (hlen : (Value.marshalElems vs).length ≤ k) :
    Resp.readArrayLoop read vs.length v0 ⟨⟨Value.marshalElems vs ++ rest, k⟩⟩ =
      .ret ⟨v0.typ, v0.str, v0.num, v0.bulk, v0.array ++ vs⟩ none
        ⟨⟨rest, k - (Value.marshalElems vs).length⟩⟩ := by
  have h := Resp.readArrayLoop_elems_more read vs hread 0 v0 rest k hk hlen
  rw [Nat.add_zero] at h
  rw [h, Resp.readArrayLoop]

theorem Reader.ReadByte_cons (b : Byte) (rest : List Byte) (k : Nat) :
    Reader.ReadByte ⟨b :: rest, k⟩ = some (b, ⟨rest, filled k (rest.length + 1) - 1⟩) := rfl

/-- Decoding one frame that lies in the buffer (after the buffer was filled, if
it was empty): `Read` returns the encoded value and stops right behind the
frame. -/
theorem Resp.ReadF_frame : ∀ v : Value, v.isBulkArray = true →
    ∀ (fuel : Nat) (rest : List Byte) (k : Nat), v.Marshal.length ≤ fuel →
      k ≤ defaultBufSize → v.Marshal.length ≤ filled k (v.Marshal.length + rest.length) →
      Resp.ReadF fuel ⟨⟨v.Marshal ++ rest, k⟩⟩ =
        .ret v none ⟨⟨rest, filled k (v.Marshal.length + rest.length) - v.Marshal.length⟩⟩ := by
  refine Value.bulkArray_induction ?_ ?_
  · intro p fuel rest k hfuel hk hfill
    have hK := filled_le k ((Value.Bulk p).Marshal.length + rest.length) hk
    have hL : (Value.Bulk p).Marshal.length = (Itoa (p.length : Int)).length + p.length + 5 := by
      rw [Value.Marshal_Bulk]
      simp only [List.length_cons, List.length_append, List.length_nil]
      omega
    generalize (Value.Bulk p).Marshal.length = L at hfuel hfill hK hL ⊢
    obtain ⟨f, rfl⟩ : ∃ f, fuel = f + 1 := ⟨fuel - 1, by omega⟩
    rw [Value.Marshal_Bulk, Resp.ReadF, List.cons_append, Reader.ReadByte_cons]
    simp only [show ¬ BULK = ARRAY by decide, if_false, if_true]
    have e1 : (Itoa (p.length : Int) ++ [CR, LF] ++ p ++ [CR, LF] ++ rest).length + 1 =
        L + rest.length := by
      simp only [List.length_append, List.length_cons, List.length_nil]; omega
    rw [e1, Resp.readBulk_frame p rest _ (by omega) (by omega)]
    congr 3
    omega
  · intro vs hall ih fuel rest k hfuel hk hfill
    have hK := filled_le k ((Value.Array vs).Marshal.length + rest.length) hk
    have hcount := Value.marshalElems_length vs hall
    have hL : (Value.Array vs).Marshal.length =
        (Itoa (vs.length : Int)).length + (Value.marshalElems vs).length + 3 := by
      rw [Value.Marshal_Array]
      simp only [List.length_cons, List.length_append, List.length_nil]
      omega
    generalize (Value.Array vs).Marshal.length = L at hfuel hfill hK hL ⊢
    obtain ⟨f, rfl⟩ : ∃ f, fuel = f + 1 := ⟨fuel - 1, by omega⟩
    have hn : vs.length < 2 ^ 63 := by
      simp only [defaultBufSize] at hK; omega
    rw [Value.Marshal_Array, Resp.ReadF, List.cons_append, Reader.ReadByte_cons]
    simp only [if_true]
    have hs : Itoa (vs.length : Int) ++ [CR, LF] ++ Value.marshalElems vs ++ rest =
        Itoa (vs.length : Int) ++ CR :: LF :: (Value.marshalElems vs ++ rest) := by simp
    rw [hs]
    have e1 : (Itoa (vs.length : Int) ++ CR :: LF :: (Value.marshalElems vs ++ rest)).length + 1 =
        L + rest.length := by
      simp only [List.length_append, List.length_cons, List.length_nil]; omega
    rw [e1]
    simp only [Resp.readArray, Resp.readInteger_Itoa vs.length hn, Int.toNat_ofNat]
    rw [bufferedAfter_le _ _ _ (by omega)]
    have hread : ∀ e ∈ vs, ∀ (rest : List Byte) (k : Nat), k ≤ defaultBufSize →
        e.Marshal.length ≤ k →
        Resp.ReadF f ⟨⟨e.Marshal ++ rest, k⟩⟩ = .ret e none ⟨⟨rest, k - e.Marshal.length⟩⟩ := by
      intro e he rest' k' hk' hlen'
      have h4 := Value.Marshal_length_pos e (hall e he)
      have hle := Value.Marshal_le_marshalElems vs e he
      have := ih e he f rest' k' (by omega) hk' (by rw [filled_pos k' _ (by omega)]; exact hlen')
      rw [filled_pos k' _ (by omega)] at this
      exact this
    rw [Resp.readArrayLoop_elems (Resp.ReadF f) vs hread _ rest _ (by omega) (by omega)]
    simp only [List.nil_append, Value.Array]
    congr 3
    omega


/-- The method `Read` on a reader whose buffer holds (after filling, if it was
empty) the whole encoding of `v`: the result is `v`, without error, and the
stream stands right behind the frame. -/
theorem Resp.Read_frame (v : Value) (hv : v.isBulkArray = true) (rest : List Byte) (k : Nat)
    (hk : k ≤ defaultBufSize)
    (hfill : v.Marshal.length ≤ filled k (v.Marshal.length + rest.length)) :
    Resp.Read ⟨⟨v.Marshal ++ rest, k⟩⟩ =
      .ret v none ⟨⟨rest, filled k (v.Marshal.length + rest.length) - v.Marshal.length⟩⟩ := by
  unfold Resp.Read
  exact Resp.ReadF_frame v hv _ rest k (by simp only [List.length_append]; omega) hk hfill

/-- The method `Read` on a new reader over the encoding of `v` followed by
`rest`, when the encoding is no longer than the buffer. -/
theorem Resp.Read_NewResp_frame (v : Value) (hv : v.isBulkArray = true) (rest : List Byte)
    (hsize : v.Marshal.length ≤ defaultBufSize) :
    Resp.Read (NewResp (v.Marshal ++ rest)) =
      .ret v none
        ⟨⟨rest, min defaultBufSize (v.Marshal.length + rest.length) - v.Marshal.length⟩⟩ := by
  have h := Resp.Read_frame v hv rest 0 (Nat.zero_le _)
    (by simp only [filled, if_true]; omega)
  simpa [NewResp, NewReader, filled] using h

/-- The nested array `[[a, b], c]` of the specification: its encoding decodes to
the same structure, in the same order. -/
theorem Read_Marshal_nested_example :
    Resp.Read (NewResp (Value.Array [Value.Array [Value.Bulk [97], Value.Bulk [98]],
        Value.Bulk [99]]).Marshal) =
      .ret (Value.Array [Value.Array [Value.Bulk [97], Value.Bulk [98]], Value.Bulk [99]])
        none ⟨⟨[], 0⟩⟩ := by
  decide

/-- A bulk string whose payload is CR LF CR: the payload is returned as it is. -/
theorem Read_Marshal_bulk_crlf_example :
    Resp.Read (NewResp (Value.Bulk [13, 10, 13]).Marshal) =
      .ret (Value.Bulk [13, 10, 13]) none ⟨⟨[], 0⟩⟩ := by
  decide

/-! ## Claims about the codec -/

/-- Claim C1, counterexample: the encoding of the simple string `OK` does not
decode to that value.  `Read` takes the byte `'+'` for an unknown type and
returns the empty value `Value{}` without error, leaving `OK\r\n` unread. -/
theorem Read_Marshal_SimpleString_not_roundtrip :
    Resp.Read (NewResp (Value.SimpleString [79, 75]).Marshal) =
        .ret Value.zero none ⟨⟨[79, 75, 13, 10], 4⟩⟩ ∧
      Value.zero ≠ Value.SimpleString [79, 75] := by
  decide

/-- Claim C1, amended: for every value built from bulk strings and arrays
(arrays nested to any depth, unused fields zero) whose encoding is at most
`defaultBufSize = 4096` bytes long, `Read` over exactly the bytes of
`Marshal(v)` returns `v` with no error and reads the stream to its end. -/
theorem Read_Marshal_roundtrip (v : Value) (hv : v.isBulkArray = true)
    (hsize : v.Marshal.length ≤ defaultBufSize) :
    Resp.Read (NewResp v.Marshal) = .ret v none ⟨⟨[], 0⟩⟩ := by
  have h := Resp.Read_NewResp_frame v hv [] hsize
  simp only [List.append_nil, List.length_nil, Nat.add_zero] at h
  rw [h, Nat.min_eq_right hsize, Nat.sub_self]

/-- Claim C1, witness of the amended round trip: the command `SET x`. -/
theorem Read_Marshal_roundtrip_witness :
    (Value.Array [Value.Bulk [83, 69, 84], Value.Bulk [120]]).isBulkArray = true ∧
      (Value.Array [Value.Bulk [83, 69, 84], Value.Bulk [120]]).Marshal.length
        ≤ defaultBufSize ∧
      Resp.Read (NewResp (Value.Array [Value.Bulk [83, 69, 84], Value.Bulk [120]]).Marshal) =
        .ret (Value.Array [Value.Bulk [83, 69, 84], Value.Bulk [120]]) none ⟨⟨[], 0⟩⟩ :=
  ⟨by decide, by decide, Read_Marshal_roundtrip _ (by decide) (by decide)⟩

set_option maxRecDepth 100000 in
/-- Claim C2, the code at the failing input: an array holding one bulk string of
4096 bytes `'a'`.  The first fill of the buffer takes 4096 bytes of the stream,
11 of them are the two headers, so `bufio.Reader.Read` copies only the 4085
buffered payload bytes and the decoded payload ends in 11 zero bytes. -/
theorem Read_Marshal_array_long_bulk :
    Resp.Read (NewResp (Value.Array [Value.Bulk (List.replicate 4096 97)]).Marshal) =
        .ret (Value.Array [Value.Bulk (List.replicate 4085 97 ++ List.replicate 11 0)]) none
          ⟨⟨[], 0⟩⟩ ∧
      Value.Array [Value.Bulk (List.replicate 4085 97 ++ List.replicate 11 0)] ≠
        Value.Array [Value.Bulk (List.replicate 4096 97)] := by
  decide!

set_option maxRecDepth 100000 in
/-- Claim C3, the code at the failing input: a bulk string of 4096 bytes `'a'`.
The frame has the stated form, with the decimal header `4096`, but `Read`
returns a payload whose last 7 bytes are zero: after the 7 bytes `$4096\r\n`
only 4089 payload bytes are in the buffer, and `bufio.Reader.Read` copies no
more than those. -/
theorem Read_Marshal_long_bulk :
    (Value.Bulk (List.replicate 4096 97)).Marshal =
        [36, 52, 48, 57, 54, 13, 10] ++ List.replicate 4096 97 ++ [13, 10] ∧
      Resp.Read (NewResp (Value.Bulk (List.replicate 4096 97)).Marshal) =
        .ret (Value.Bulk (List.replicate 4089 97 ++ List.replicate 7 0)) none ⟨⟨[], 0⟩⟩ ∧
      List.replicate 4089 97 ++ List.replicate 7 (0 : Byte) ≠ List.replicate 4096 97 := by
  decide!

set_option maxRecDepth 100000 in
/-- Claim C4, the code at the failing input: a bulk string of 4096 bytes whose
byte 4089 is CR, followed by the frame `$1\r\nb\r\n`.  `Read` returns a payload
that ends in 7 zero bytes, and the `readLine` meant for the closing CR LF stops
at the CR inside the payload: five payload bytes and the closing CR LF are
still unread in front of the next frame. -/
theorem Read_long_bulk_position :
    Resp.Read (NewResp ((Value.Bulk (List.replicate 4089 97 ++ [13] ++ List.replicate 6 97)).Marshal
        ++ [36, 49, 13, 10, 98, 13, 10])) =
      .ret (Value.Bulk (List.replicate 4089 97 ++ List.replicate 7 0)) none
        ⟨⟨[97, 97, 97, 97, 97, 13, 10] ++ [36, 49, 13, 10, 98, 13, 10], 14⟩⟩ := by
  decide!


/-! ## The append-only file -/

/-- A write at the end of the file appends. -/
theorem File.Write_at_end (content b : List Byte) :
    File.Write ⟨content, content.length⟩ b = ⟨content ++ b, (content ++ b).length⟩ := by
  unfold File.Write
  by_cases hb : b = []
  · subst hb; simp
  · simp only [hb, if_false, zeroPad, List.take_length, Nat.sub_self, List.replicate_zero,
      List.append_nil, List.length_append]
    rw [List.drop_eq_nil_of_le (by omega)]
    simp

/-- Writing values to a log whose handle stands at the end of the file appends
their encodings in order and leaves the handle at the end. -/
theorem Aof.writeAll_at_end (vs : List Value) : ∀ content : List Byte,
    Aof.writeAll ⟨⟨content, content.length⟩⟩ vs =
      ⟨⟨content ++ Value.marshalElems vs, (content ++ Value.marshalElems vs).length⟩⟩ := by
  induction vs with
  | nil => intro content; simp [Aof.writeAll, Value.marshalElems]
  | cons v vs ih =>
    intro content
    have h := ih (content ++ v.Marshal)
    simp only [Aof.writeAll, List.foldl_cons, Aof.Write, File.Write_at_end] at h ⊢
    rw [h, Value.marshalElems_cons, List.append_assoc]

/-- The first byte of a stream that fits the buffer is read the same way
whether the buffer is still empty or already holds the whole stream. -/
theorem Resp.Read_filled (u : List Byte) (k : Nat) (hk : filled k u.length = u.length)
    (hu : u.length ≤ defaultBufSize) :
    Resp.Read ⟨⟨u, k⟩⟩ = Resp.Read ⟨⟨u, 0⟩⟩ := by
  cases u with
  | nil =>
    have : k = 0 := by
      simp only [filled, List.length_nil] at hk
      by_contra h
      rw [if_neg h] at hk
      exact h hk
    rw [this]
  | cons b rest =>
    simp only [Resp.Read, Resp.ReadF, Reader.ReadByte_cons]
    have h0 : filled 0 (rest.length + 1) = rest.length + 1 := by
      simp only [filled, if_true]
      simp only [List.length_cons] at hu
      omega
    simp only [List.length_cons] at hk
    rw [hk, h0]

/-- The loop of `Aof.Read` over the encodings of `vs`, all in the buffer (or
about to be, when the buffer is still empty): `fn` is called with every value
of `vs` in order, and the loop goes on behind them. -/
theorem Aof.readLoop_frames (vs : List Value) :
    (∀ e ∈ vs, Value.isBulkArray e = true) →
    ∀ (fuel : Nat) (rest : List Byte) (k : Nat) (calls : List Value),
      (Value.marshalElems vs ++ rest).length ≤ defaultBufSize →
      filled k (Value.marshalElems vs ++ rest).length = (Value.marshalElems vs ++ rest).length →
      ∃ k', filled k' rest.length = rest.length ∧
        Aof.readLoop (fuel + vs.length) ⟨⟨Value.marshalElems vs ++ rest, k⟩⟩ calls =
          Aof.readLoop fuel ⟨⟨rest, k'⟩⟩ (calls ++ vs) := by
  induction vs with
  | nil =>
    intro _ fuel rest k calls _ hk
    exact ⟨k, by simpa [Value.marshalElems] using hk, by simp [Value.marshalElems]⟩
  | cons v vs ih =>
    intro hall fuel rest k calls hsize hk
    have hv := hall v (List.mem_cons_self _ _)
    have h4 := Value.Marshal_length_pos v hv
    rw [Value.marshalElems_cons, List.append_assoc] at hsize hk ⊢
    rw [List.length_append] at hsize hk
    have hk0 : k ≤ defaultBufSize := by
      by_cases h0 : k = 0
      · omega
      · simp only [filled, if_neg h0] at hk; omega
    have hstep := Resp.Read_frame v hv (Value.marshalElems vs ++ rest) k hk0 (by omega)
    rw [hk] at hstep
    obtain ⟨k', hk', hloop⟩ := ih (fun e he => hall e (List.mem_cons_of_mem _ he)) fuel rest
      (v.Marshal.length + (Value.marshalElems vs ++ rest).length - v.Marshal.length)
      (calls ++ [v]) (by omega) (by
        rw [Nat.add_sub_cancel_left]
        simp only [filled]
        split_ifs with h
        · omega
        · rfl)
    refine ⟨k', hk', ?_⟩
    have hf : fuel + (v :: vs).length = (fuel + vs.length) + 1 := by
      simp only [List.length_cons]; omega
    rw [hf, Aof.readLoop, hstep]
    simp only
    rw [hloop, List.append_assoc, List.singleton_append]

/-- A replay of a log that holds the encodings of `vs` followed by `bad`, all
within one buffer, when `Read` over `bad` yields the outcome `o`: `fn` gets
exactly `vs`, and then the loop sees `o`. -/
theorem Aof.Read_frames (aof : Aof) (vs : List Value) (bad : List Byte)
    (hall : ∀ e ∈ vs, Value.isBulkArray e = true)
    (hcontent : aof.file.content = Value.marshalElems vs ++ bad)
    (hsize : aof.file.content.length ≤ defaultBufSize) :
    ∃ k', (Aof.Read aof).1 =
        (Aof.readLoop (bad.length + 1 + ((Value.marshalElems vs).length - vs.length))
          ⟨⟨bad, k'⟩⟩ vs).1 ∧
      (Aof.Read aof).2.1 =
        (Aof.readLoop (bad.length + 1 + ((Value.marshalElems vs).length - vs.length))
          ⟨⟨bad, k'⟩⟩ vs).2.1 ∧
      Resp.Read ⟨⟨bad, k'⟩⟩ = Resp.Read (NewResp bad) := by
  have hcount := Value.marshalElems_length vs hall
  rw [hcontent] at hsize
  obtain ⟨k', hk', hloop⟩ := Aof.readLoop_frames vs hall
    (bad.length + 1 + ((Value.marshalElems vs).length - vs.length)) bad 0 [] hsize
    (by simp only [filled, if_true]; omega)
  have hfuel : aof.file.content.length + 1 =
      bad.length + 1 + ((Value.marshalElems vs).length - vs.length) + vs.length := by
    rw [hcontent, List.length_append]; omega
  refine ⟨k', ?_, ?_, ?_⟩
  · simp only [Aof.Read, NewResp, NewReader]
    rw [hfuel, hcontent, hloop, List.nil_append]
  · simp only [Aof.Read, NewResp, NewReader]
    rw [hfuel, hcontent, hloop, List.nil_append]
  · rw [List.length_append] at hsize
    exact Resp.Read_filled bad k' hk' (by omega)

/-- A replay of a log of at most 4096 bytes that holds the encodings of `vs`
and nothing else: `fn` gets exactly `vs`, in order, and the replay returns
`nil`. -/
theorem Aof.Read_small_log (aof : Aof) (vs : List Value)
    (hall : ∀ e ∈ vs, Value.isBulkArray e = true)
    (hcontent : aof.file.content = Value.marshalElems vs)
    (hsize : aof.file.content.length ≤ defaultBufSize) :
    (Aof.Read aof).1 = vs ∧ (Aof.Read aof).2.1 = .returned none := by
  obtain ⟨k', h1, h2, h3⟩ := Aof.Read_frames aof vs [] hall (by rw [hcontent, List.append_nil])
    hsize
  have h4 : Resp.Read (NewResp []) = .ret Value.zero (some .EOF) ⟨⟨[], 0⟩⟩ := rfl
  rw [h4] at h3
  have hf : ([] : List Byte).length + 1 + ((Value.marshalElems vs).length - vs.length) =
      (((Value.marshalElems vs).length - vs.length)) + 1 := by
    simp only [List.length_nil]; omega
  rw [hf, Aof.readLoop, h3] at h1 h2
  exact ⟨h1, h2⟩

/-- Values written to a fresh log, of at most 4096 bytes in all, are replayed
in the order they were written. -/
theorem Aof.Read_writeAll_small (vs : List Value)
    (hall : ∀ e ∈ vs, Value.isBulkArray e = true)
    (hsize : (Value.marshalElems vs).length ≤ defaultBufSize) :
    (Aof.Read (Aof.writeAll (NewAof []) vs)).1 = vs ∧
      (Aof.Read (Aof.writeAll (NewAof []) vs)).2.1 = .returned none := by
  have hw : Aof.writeAll (NewAof []) vs =
      ⟨⟨Value.marshalElems vs, (Value.marshalElems vs).length⟩⟩ := by
    have h := Aof.writeAll_at_end vs []
    simpa [NewAof] using h
  rw [hw]
  exact Aof.Read_small_log _ vs hall rfl hsize

/-- The record `*2\r\n$3\r\nSET\r\n$1\r\nx\r\n` of the specification:
a log that holds exactly this record is replayed as one call of `fn`, with the
array of the bulk strings `SET` and `x`. -/
theorem Aof_replay_SET_x_example :
    Aof.Read (NewAof [42, 50, 13, 10, 36, 51, 13, 10, 83, 69, 84, 13, 10, 36, 49, 13, 10, 120,
        13, 10]) =
      ([Value.Array [Value.Bulk [83, 69, 84], Value.Bulk [120]]], .returned none,
        ⟨⟨[42, 50, 13, 10, 36, 51, 13, 10, 83, 69, 84, 13, 10, 36, 49, 13, 10, 120, 13, 10],
          20⟩⟩) := by
  decide

/-- A `Write` to a log whose handle stands at the end of the file leaves the
stored bytes as they are and puts the encoding of the value behind them. -/
theorem Aof.Write_appends_at_end (content : List Byte) (v : Value) :
    (Aof.Write ⟨⟨content, content.length⟩⟩ v).file.content = content ++ v.Marshal := by
  simp only [Aof.Write, File.Write_at_end]

/-! ## Claims about the append-only file -/

set_option maxRecDepth 100000 in
/-- Claim C5, the code at the failing input: the command `SET k` with a value of
4096 bytes `'a'`, written to a fresh log and replayed.  `fn` is called once,
without error, but with a value whose payload ends in 27 zero bytes: the 27
bytes of headers and shorter elements in front of the payload leave only 4069
payload bytes in the buffer when `bufio.Reader.Read` is called. -/
theorem Aof_replay_long_value :
    (Aof.Read (Aof.writeAll (NewAof [])
        [Value.Array [Value.Bulk [83, 69, 84], Value.Bulk [107],
          Value.Bulk (List.replicate 4096 97)]])).1 =
      [Value.Array [Value.Bulk [83, 69, 84], Value.Bulk [107],
        Value.Bulk (List.replicate 4069 97 ++ List.replicate 27 0)]] ∧
    (Aof.Read (Aof.writeAll (NewAof [])
        [Value.Array [Value.Bulk [83, 69, 84], Value.Bulk [107],
          Value.Bulk (List.replicate 4096 97)]])).2.1 = .returned none := by
  decide!

/-- Claim C6, the code at the failing input: a log opened over a file that holds
`$1\r\na\r\n`, and a `Write` of the bulk string `b` before any replay.  The
handle stands at offset 0, so the seven bytes of the new record replace the old
record instead of following it. -/
theorem Aof_Write_overwrites :
    (Aof.Write (NewAof [36, 49, 13, 10, 97, 13, 10]) (Value.Bulk [98])).file.content =
        [36, 49, 13, 10, 98, 13, 10] ∧
      (Aof.Write (NewAof [36, 49, 13, 10, 97, 13, 10]) (Value.Bulk [98])).file.content ≠
        [36, 49, 13, 10, 97, 13, 10] ++ (Value.Bulk [98]).Marshal := by
  decide

/-- Claim C7, the code at the failing input: the log `$5\r\nab`, which ends
three bytes before the end of the payload its header declares.  The replay
returns `nil`; `fn` has been called with a bulk string of five bytes, `ab` and
three zero bytes. -/
theorem Aof_replay_truncated_bulk :
    Aof.Read (NewAof [36, 53, 13, 10, 97, 98]) =
      ([Value.Bulk [97, 98, 0, 0, 0]], .returned none, ⟨⟨[36, 53, 13, 10, 97, 98], 6⟩⟩) := by
  decide


/-! ## End of stream -/

/-- The method `Read` on an empty stream: `Value{}` and `io.EOF`. -/
theorem Resp.Read_nil (k : Nat) :
    Resp.Read ⟨⟨[], k⟩⟩ = .ret Value.zero (some .EOF) ⟨⟨[], k⟩⟩ := rfl

/-- The loop of `readLine` on a stream that ends before a line is complete:
`io.EOF`, with the whole stream taken. -/
theorem Resp.readLineLoop_eof (u : List Byte) :
    ∀ (line : List Byte) (n k : Nat), noLineEnd u = true → line.getLast? ≠ some CR →
      (Resp.readLineLoop u k line n).1 = ([], 0, some Err.EOF) ∧
        (Resp.readLineLoop u k line n).2.reader.unread = [] := by
  induction u with
  | nil => intro line n k _ _; exact ⟨rfl, rfl⟩
  | cons b rest ih =>
    intro line n k hu hline
    have hstop : ¬ ((line ++ [b]).length ≥ 2 ∧
        (line ++ [b]).get? ((line ++ [b]).length - 2) = some CR) := by
      rw [readLine_stop_iff]; exact hline
    rw [Resp.readLineLoop_cons, if_neg hstop]
    cases rest with
    | nil => exact ⟨rfl, rfl⟩
    | cons c rest' =>
      simp only [noLineEnd, Bool.and_eq_true, bne_iff_ne, ne_eq] at hu
      refine ih _ _ _ hu.2 ?_
      rw [List.getLast?_concat]
      simpa using hu.1

/-- The method `readInteger` on a stream that ends inside the header line. -/
theorem Resp.readInteger_eof (u : List Byte) (k : Nat) (hu : noLineEnd u = true) :
    ∃ r, Resp.readInteger ⟨⟨u, k⟩⟩ = ((0, 0, some Err.EOF), r) ∧ r.reader.unread = [] := by
  have h := Resp.readLineLoop_eof u [] 0 k hu (by simp)
  refine ⟨(Resp.readLineLoop u k [] 0).2, ?_, h.2⟩
  simp only [Resp.readInteger, Resp.readLine]
  generalize Resp.readLineLoop u k [] 0 = res at h
  obtain ⟨⟨line, n, err⟩, r⟩ := res
  simp only [Prod.mk.injEq] at h
  obtain ⟨⟨h1, h2, h3⟩, _⟩ := h
  subst h1 h2 h3
  rfl

/-- The method `Read` on an array frame cut off inside its count header. -/
theorem Resp.Read_array_header_eof (h : List Byte) (k : Nat) (hh : noLineEnd h = true) :
    ∃ r, Resp.Read ⟨⟨ARRAY :: h, k⟩⟩ = .ret (Value.Array []) (some .EOF) r ∧
      r.reader.unread = [] := by
  obtain ⟨r, hr, hr'⟩ := Resp.readInteger_eof h (filled k (h.length + 1) - 1) hh
  refine ⟨r, ?_, hr'⟩
  simp only [Resp.Read, Resp.ReadF, Reader.ReadByte_cons, if_true, Resp.readArray, hr]
  rfl

/-- The method `Read` on a bulk frame cut off inside its length header. -/
theorem Resp.Read_bulk_header_eof (h : List Byte) (k : Nat) (hh : noLineEnd h = true) :
    ∃ r, Resp.Read ⟨⟨BULK :: h, k⟩⟩ = .ret (Value.Bulk []) (some .EOF) r ∧
      r.reader.unread = [] := by
  obtain ⟨r, hr, hr'⟩ := Resp.readInteger_eof h (filled k (h.length + 1) - 1) hh
  refine ⟨r, ?_, hr'⟩
  simp only [Resp.Read, Resp.ReadF, Reader.ReadByte_cons, show ¬ BULK = ARRAY by decide,
    if_false, if_true, Resp.readBulk, hr]
  rfl

/-- The loop of `readArray` when the stream ends after the complete encodings
of `vs` and more elements are still to be read: the array read so far and
`io.EOF`. -/
theorem Resp.readArrayLoop_elems_eof (vs : List Value) (n : Nat)
    (hall : ∀ e ∈ vs, Value.isBulkArray e = true) (hn : vs.length < n) (F k : Nat)
    (hF : (Value.marshalElems vs).length < F) (hk : k = (Value.marshalElems vs).length)
    (hsize : k ≤ defaultBufSize) :
    Resp.readArrayLoop (Resp.ReadF F) n ⟨"array", [], 0, [], []⟩
        ⟨⟨Value.marshalElems vs ++ [], k⟩⟩ =
      .ret (Value.Array vs) (some .EOF) ⟨⟨[], 0⟩⟩ := by
  obtain ⟨j, hj⟩ : ∃ j, n = vs.length + (j + 1) := ⟨n - vs.length - 1, by omega⟩
  obtain ⟨G, rfl⟩ : ∃ G, F = G + 1 := ⟨F - 1, by omega⟩
  have hread : ∀ e ∈ vs, ∀ (rest : List Byte) (k : Nat), k ≤ defaultBufSize →
      e.Marshal.length ≤ k →
      Resp.ReadF (G + 1) ⟨⟨e.Marshal ++ rest, k⟩⟩ =
        .ret e none ⟨⟨rest, k - e.Marshal.length⟩⟩ := by
    intro e he rest' k' hk' hlen'
    have h4 := Value.Marshal_length_pos e (hall e he)
    have hle := Value.Marshal_le_marshalElems vs e he
    have := Resp.ReadF_frame e (hall e he) (G + 1) rest' k' (by omega) hk'
      (by rw [filled_pos k' _ (by omega)]; exact hlen')
    rw [filled_pos k' _ (by omega)] at this
    exact this
  rw [hj, Resp.readArrayLoop_elems_more _ vs hread (j + 1) _ [] _ hsize (by omega), hk,
    Nat.sub_self, Resp.readArrayLoop, Resp.ReadF]
  simp [Reader.ReadByte, Value.Array]

/-- The method `Read` on an array frame whose stream ends after the complete
encodings of `vs`, fewer elements than the header `n` declares: the array read
so far and `io.EOF`. -/
theorem Resp.Read_array_elems_eof (vs : List Value) (n : Nat)
    (hall : ∀ e ∈ vs, Value.isBulkArray e = true) (hn : vs.length < n)
    (hn63 : n < 2 ^ 63)
    (hsize : (ARRAY :: (Itoa (n : Int) ++ [CR, LF] ++ Value.marshalElems vs)).length
      ≤ defaultBufSize) :
    Resp.Read (NewResp (ARRAY :: (Itoa (n : Int) ++ [CR, LF] ++ Value.marshalElems vs))) =
      .ret (Value.Array vs) (some .EOF) ⟨⟨[], 0⟩⟩ := by
  have hL : (ARRAY :: (Itoa (n : Int) ++ [CR, LF] ++ Value.marshalElems vs)).length =
      (Itoa (n : Int)).length + (Value.marshalElems vs).length + 3 := by
    simp only [List.length_cons, List.length_append, List.length_nil]
    omega
  rw [hL] at hsize
  have hs : Itoa (n : Int) ++ [CR, LF] ++ Value.marshalElems vs =
      Itoa (n : Int) ++ CR :: LF :: (Value.marshalElems vs ++ []) := by simp
  have e1 : (Itoa (n : Int) ++ CR :: LF :: (Value.marshalElems vs ++ [])).length =
      (Itoa (n : Int)).length + (Value.marshalElems vs).length + 2 := by
    simp only [List.length_append, List.length_cons, List.length_nil]; omega
  have e2 : filled 0 ((Itoa (n : Int)).length + (Value.marshalElems vs).length + 2 + 1) =
      (Itoa (n : Int)).length + (Value.marshalElems vs).length + 3 := by
    simp only [filled, if_true]; omega
  simp only [NewResp, NewReader, Resp.Read]
  rw [hs, List.length_cons, e1, Resp.ReadF, Reader.ReadByte_cons]
  simp only [if_true]
  rw [e1, e2]
  simp only [Resp.readArray, Resp.readInteger_Itoa n hn63, Int.toNat_ofNat]
  rw [bufferedAfter_le _ _ _ (by omega)]
  exact Resp.readArrayLoop_elems_eof vs n hall hn _ _ (by omega) (by omega) (by omega)

/-! ## Claims about errors -/

/-- Claim C8, counterexample: the stream `*1\r\n` is not empty and ends before
the one declared element, and the stream `$5` ends inside a length header; on
both `Read` returns `io.EOF` itself, not a different error. -/
theorem Read_truncated_frame_is_EOF :
    Resp.Read (NewResp [42, 49, 13, 10]) = .ret (Value.Array []) (some .EOF) ⟨⟨[], 0⟩⟩ ∧
      Resp.Read (NewResp [36, 53]) = .ret (Value.Bulk []) (some .EOF) ⟨⟨[], 0⟩⟩ := by
  decide

/-- Claim C8, amended: `Read` returns `io.EOF` when the stream is already empty
at the top-level type-prefix byte, and it returns the same `io.EOF` when the
stream ends inside the count header of an array or the length header of a bulk
string (`h` holds no CR followed by another byte), and when the stream ends
after the complete encodings of fewer elements `vs` than an array header `n`
declares (the frame no longer than the 4096-byte buffer). -/
theorem Read_EOF_on_truncation (h : List Byte) (vs : List Value) (n : Nat)
    (hh : noLineEnd h = true) (hall : ∀ e ∈ vs, Value.isBulkArray e = true)
    (hn : vs.length < n) (hn63 : n < 2 ^ 63)
    (hsize : (ARRAY :: (Itoa (n : Int) ++ [CR, LF] ++ Value.marshalElems vs)).length
      ≤ defaultBufSize) :
    Resp.Read (NewResp []) = .ret Value.zero (some .EOF) ⟨⟨[], 0⟩⟩ ∧
      (∃ r, Resp.Read (NewResp (ARRAY :: h)) = .ret (Value.Array []) (some .EOF) r ∧
        r.reader.unread = []) ∧
      (∃ r, Resp.Read (NewResp (BULK :: h)) = .ret (Value.Bulk []) (some .EOF) r ∧
        r.reader.unread = []) ∧
      Resp.Read (NewResp (ARRAY :: (Itoa (n : Int) ++ [CR, LF] ++ Value.marshalElems vs))) =
        .ret (Value.Array vs) (some .EOF) ⟨⟨[], 0⟩⟩ :=
  ⟨Resp.Read_nil 0, Resp.Read_array_header_eof h 0 hh, Resp.Read_bulk_header_eof h 0 hh,
    Resp.Read_array_elems_eof vs n hall hn hn63 hsize⟩

/-- Claim C8, witness: the header cut `1` + CR (of `*1\r\n` or `$1\r\n`) and the
array `*2\r\n$1\r\na\r\n`, which declares two elements and holds one. -/
theorem Read_EOF_on_truncation_witness :
    noLineEnd [49, 13] = true ∧
      (∀ e ∈ [Value.Bulk [97]], Value.isBulkArray e = true) ∧
      [Value.Bulk [97]].length < 2 ∧
      (ARRAY :: (Itoa ((2 : Nat) : Int) ++ [CR, LF] ++ Value.marshalElems [Value.Bulk [97]])).length
        ≤ defaultBufSize ∧
      (Resp.Read (NewResp []) = .ret Value.zero (some .EOF) ⟨⟨[], 0⟩⟩ ∧
        (∃ r, Resp.Read (NewResp (ARRAY :: [49, 13])) = .ret (Value.Array []) (some .EOF) r ∧
          r.reader.unread = []) ∧
        (∃ r, Resp.Read (NewResp (BULK :: [49, 13])) = .ret (Value.Bulk []) (some .EOF) r ∧
          r.reader.unread = []) ∧
        Resp.Read (NewResp (ARRAY :: (Itoa ((2 : Nat) : Int) ++ [CR, LF] ++
            Value.marshalElems [Value.Bulk [97]]))) =
          .ret (Value.Array [Value.Bulk [97]]) (some .EOF) ⟨⟨[], 0⟩⟩) :=
  ⟨by decide, by decide, by decide, by decide,
    Read_EOF_on_truncation [49, 13] [Value.Bulk [97]] 2 (by decide) (by decide) (by decide)
      (by decide) (by decide)⟩

/-- Claim C9, counterexample: the log `+OK\r\n$x\r\n`, the encoding of the
simple string `OK` followed by a frame whose header is not a number.  Decoding
at `$x\r\n` yields the syntax error of `ParseInt`, and the replay returns it,
but `fn` has been called five times with the empty value `Value{}`, once for
every byte of `+OK\r\n`, and never with the simple string. -/
theorem Aof_replay_simple_string_then_error :
    (Resp.Read (NewResp [36, 120, 13, 10])) =
        .ret (Value.Bulk []) (some .ErrSyntax) ⟨⟨[], 0⟩⟩ ∧
      (Aof.Read (NewAof ((Value.SimpleString [79, 75]).Marshal ++ [36, 120, 13, 10]))).1 =
        [Value.zero, Value.zero, Value.zero, Value.zero, Value.zero] ∧
      (Aof.Read (NewAof ((Value.SimpleString [79, 75]).Marshal ++ [36, 120, 13, 10]))).2.1 =
        .returned (some .ErrSyntax) ∧
      [Value.zero, Value.zero, Value.zero, Value.zero, Value.zero] ≠
        [Value.SimpleString [79, 75]] := by
  decide

/-- Claim C9, amended: for every log whose content is the encodings of values
`vs` built from bulk strings and arrays, followed by bytes `bad` on which `Read`
yields an error `e` other than `io.EOF`, the whole content at most 4096 bytes
long, `Aof.Read` returns `e` and has called `fn` with exactly the values `vs`,
in order, and with nothing else. -/
theorem Aof_replay_aborts (aof : Aof) (vs : List Value) (bad : List Byte) (v : Value)
    (e : Err) (r : Resp) (hall : ∀ w ∈ vs, Value.isBulkArray w = true)
    (hcontent : aof.file.content = Value.marshalElems vs ++ bad)
    (hsize : aof.file.content.length ≤ defaultBufSize)
    (hbad : Resp.Read (NewResp bad) = .ret v (some e) r) (he : e ≠ Err.EOF) :
    (Aof.Read aof).1 = vs ∧ (Aof.Read aof).2.1 = .returned (some e) := by
  obtain ⟨k', h1, h2, h3⟩ := Aof.Read_frames aof vs bad hall hcontent hsize
  rw [hbad] at h3
  have hf : bad.length + 1 + ((Value.marshalElems vs).length - vs.length) =
      (bad.length + ((Value.marshalElems vs).length - vs.length)) + 1 := by omega
  rw [hf, Aof.readLoop, h3] at h1 h2
  cases e with
  | EOF => exact absurd rfl he
  | ErrSyntax => exact ⟨h1, h2⟩
  | ErrRange => exact ⟨h1, h2⟩

/-- Claim C9, witness: the log `*2\r\n$3\r\nSET\r\n$1\r\nx\r\n` followed by
`$x\r\n`. -/
theorem Aof_replay_aborts_witness :
    (∀ w ∈ [Value.Array [Value.Bulk [83, 69, 84], Value.Bulk [120]]],
        Value.isBulkArray w = true) ∧
      Resp.Read (NewResp [36, 120, 13, 10]) =
        .ret (Value.Bulk []) (some .ErrSyntax) ⟨⟨[], 0⟩⟩ ∧
      (Aof.Read (NewAof (Value.marshalElems
          [Value.Array [Value.Bulk [83, 69, 84], Value.Bulk [120]]] ++ [36, 120, 13, 10]))).1 =
        [Value.Array [Value.Bulk [83, 69, 84], Value.Bulk [120]]] ∧
      (Aof.Read (NewAof (Value.marshalElems
          [Value.Array [Value.Bulk [83, 69, 84], Value.Bulk [120]]] ++ [36, 120, 13, 10]))).2.1 =
        .returned (some .ErrSyntax) :=
  ⟨by decide, by decide,
    Aof_replay_aborts (NewAof (Value.marshalElems
        [Value.Array [Value.Bulk [83, 69, 84], Value.Bulk [120]]] ++ [36, 120, 13, 10]))
      [Value.Array [Value.Bulk [83, 69, 84], Value.Bulk [120]]] [36, 120, 13, 10]
      (Value.Bulk []) .ErrSyntax ⟨⟨[], 0⟩⟩ (by decide) rfl (by decide) (by decide) (by decide)⟩

/-- Claim C10: for every reader whose unread stream starts with a byte `b` that
is neither `'*'` nor `'$'`, `Read` returns the empty value `Value{}` (all fields
zero) with no error, and exactly that one byte has been taken off the stream. -/
theorem Read_unknown_prefix (r : Resp) (b : Byte) (s : List Byte)
    (hr : r.reader.unread = b :: s) (h1 : b ≠ ARRAY) (h2 : b ≠ BULK) :
    ∃ r', Resp.Read r = .ret Value.zero none r' ∧ r'.reader.unread = s := by
  obtain ⟨⟨u, k⟩⟩ := r
  simp only at hr
  subst hr
  refine ⟨⟨⟨s, filled k (s.length + 1) - 1⟩⟩, ?_, rfl⟩
  simp only [Resp.Read, Resp.ReadF, Reader.ReadByte_cons, h1, h2, if_false]

/-- Claim C10, witness: the simple string frame `+OK\r\n`; only the `'+'` is
taken. -/
theorem Read_unknown_prefix_witness :
    (NewResp [43, 79, 75, 13, 10]).reader.unread = 43 :: [79, 75, 13, 10] ∧
      (43 : Byte) ≠ ARRAY ∧ (43 : Byte) ≠ BULK ∧
      ∃ r', Resp.Read (NewResp [43, 79, 75, 13, 10]) = .ret Value.zero none r' ∧
        r'.reader.unread = [79, 75, 13, 10] :=
  ⟨rfl, by decide, by decide,
    Read_unknown_prefix (NewResp [43, 79, 75, 13, 10]) 43 [79, 75, 13, 10] rfl (by decide)
      (by decide)⟩


/-! ## The recursion bound of `Read` is never reached -/

theorem Outcome.progress_within (N : Nat) (o : Outcome) (h : o.progress N) : o.within N := by
  cases o with
  | ret v err r =>
    cases err with
    | none => exact Nat.le_of_lt h
    | some e => exact h
  | panic => trivial
  | diverge => exact h

theorem Outcome.within_mono (N M : Nat) (o : Outcome) (h : o.within N) (hNM : N ≤ M) :
    o.within M := by
  cases o with
  | ret v err r => exact Nat.le_trans h hNM
  | panic => trivial
  | diverge => exact h

theorem Resp.readLineLoop_length (u : List Byte) : ∀ (k : Nat) (line : List Byte) (n : Nat),
    (Resp.readLineLoop u k line n).2.reader.unread.length ≤ u.length := by
  induction u with
  | nil => intro k line n; exact Nat.le_refl _
  | cons b rest ih =>
    intro k line n
    rw [Resp.readLineLoop_cons]
    split_ifs
    · simp
    · exact Nat.le_trans (ih _ _ _) (by simp)

theorem Resp.readLine_length (r : Resp) :
    (Resp.readLine r).2.reader.unread.length ≤ r.reader.unread.length :=
  Resp.readLineLoop_length _ _ _ _

theorem Resp.readInteger_length (r : Resp) :
    (Resp.readInteger r).2.reader.unread.length ≤ r.reader.unread.length := by
  have h := Resp.readLine_length r
  simp only [Resp.readInteger]
  generalize Resp.readLine r = res at h
  obtain ⟨⟨line, n, err⟩, r1⟩ := res
  cases err with
  | some e => exact h
  | none =>
    simp only
    generalize ParseInt line = p
    obtain ⟨i, perr⟩ := p
    cases perr <;> exact h

theorem Reader.Read_length (r : Reader) (n : Nat) :
    (r.Read n).2.unread.length ≤ r.unread.length := by
  unfold Reader.Read
  split_ifs <;> simp

theorem Resp.readBulk_within (r : Resp) : (Resp.readBulk r).within r.reader.unread.length := by
  have h := Resp.readInteger_length r
  simp only [Resp.readBulk]
  generalize Resp.readInteger r = res at h
  obtain ⟨⟨len, n, err⟩, r1⟩ := res
  cases err with
  | some e => exact h
  | none =>
    simp only
    split_ifs
    · trivial
    · exact Nat.le_trans (Resp.readLine_length _)
        (Nat.le_trans (Reader.Read_length _ _) h)

theorem Resp.readArrayLoop_within (read : Resp → Outcome) (N : Nat)
    (hread : ∀ r : Resp, r.reader.unread.length ≤ N → (read r).within r.reader.unread.length) :
    ∀ (k : Nat) (v : Value) (r : Resp), r.reader.unread.length ≤ N →
      (Resp.readArrayLoop read k v r).within r.reader.unread.length := by
  intro k
  induction k with
  | zero => intro v r _; exact Nat.le_refl _
  | succ k ih =>
    intro v r hr
    have h := hread r hr
    rw [Resp.readArrayLoop]
    generalize read r = o at h
    cases o with
    | ret val err r1 =>
      cases err with
      | none =>
        exact Outcome.within_mono _ _ _ (ih _ r1 (Nat.le_trans h hr)) h
      | some e => exact h
    | panic => trivial
    | diverge => exact h

theorem Resp.readArray_within (read : Resp → Outcome) (r : Resp)
    (hread : ∀ r' : Resp, r'.reader.unread.length ≤ r.reader.unread.length →
      (read r').within r'.reader.unread.length) :
    (Resp.readArray read r).within r.reader.unread.length := by
  have h := Resp.readInteger_length r
  simp only [Resp.readArray]
  generalize Resp.readInteger r = res at h
  obtain ⟨⟨len, n, err⟩, r1⟩ := res
  cases err with
  | some e => exact h
  | none =>
    exact Outcome.within_mono _ _ _
      (Resp.readArrayLoop_within read _ hread _ _ r1 h) h

/-- With more fuel than unread bytes `ReadF` does not run out of fuel, and a
call that returns without error has taken at least one byte. -/
theorem Resp.ReadF_progress : ∀ (fuel : Nat) (r : Resp), r.reader.unread.length < fuel →
    (Resp.ReadF fuel r).progress r.reader.unread.length := by
  intro fuel
  induction fuel with
  | zero => intro r h; omega
  | succ f ih =>
    intro r h
    obtain ⟨⟨u, k⟩⟩ := r
    cases u with
    | nil => exact Nat.le_refl _
    | cons b rest =>
      simp only [List.length_cons] at h
      rw [Resp.ReadF, Reader.ReadByte_cons]
      simp only
      have hw : ∀ o : Outcome, o.within rest.length →
          o.progress (b :: rest).length := by
        intro o ho
        cases o with
        | ret v err r1 =>
          cases err with
          | none => exact Nat.lt_succ_of_le ho
          | some e => exact Nat.le_succ_of_le ho
        | panic => trivial
        | diverge => exact ho
      split_ifs
      · apply hw
        exact Resp.readArray_within _ _ (fun r' hr' =>
          Outcome.progress_within _ _ (ih r' (by simp only at hr'; omega)))
      · apply hw
        exact Resp.readBulk_within _
      · exact Nat.lt_succ_self _

theorem Resp.readArrayLoop_congr (read1 read2 : Resp → Outcome) (N : Nat)
    (heq : ∀ r : Resp, r.reader.unread.length ≤ N → read1 r = read2 r)
    (hread : ∀ r : Resp, r.reader.unread.length ≤ N → (read1 r).within r.reader.unread.length) :
    ∀ (k : Nat) (v : Value) (r : Resp), r.reader.unread.length ≤ N →
      Resp.readArrayLoop read1 k v r = Resp.readArrayLoop read2 k v r := by
  intro k
  induction k with
  | zero => intro v r _; rfl
  | succ k ih =>
    intro v r hr
    have h := hread r hr
    rw [Resp.readArrayLoop, Resp.readArrayLoop, ← heq r hr]
    generalize read1 r = o at h
    cases o with
    | ret val err r1 =>
      cases err with
      | none => exact ih _ r1 (Nat.le_trans h hr)
      | some e => rfl
    | panic => rfl
    | diverge => rfl

theorem Resp.readArray_congr (read1 read2 : Resp → Outcome) (r : Resp)
    (heq : ∀ r' : Resp, r'.reader.unread.length ≤ r.reader.unread.length → read1 r' = read2 r')
    (hread : ∀ r' : Resp, r'.reader.unread.length ≤ r.reader.unread.length →
      (read1 r').within r'.reader.unread.length) :
    Resp.readArray read1 r = Resp.readArray read2 r := by
  have h := Resp.readInteger_length r
  simp only [Resp.readArray]
  generalize Resp.readInteger r = res at h
  obtain ⟨⟨len, n, err⟩, r1⟩ := res
  cases err with
  | some e => rfl
  | none => exact Resp.readArrayLoop_congr read1 read2 _ heq hread _ _ r1 h

/-- The result of `ReadF` does not depend on the fuel, once there is more fuel
than unread bytes. -/
theorem Resp.ReadF_fuel : ∀ (f1 f2 : Nat) (r : Resp), r.reader.unread.length < f1 →
    r.reader.unread.length < f2 → Resp.ReadF f1 r = Resp.ReadF f2 r := by
  intro f1
  induction f1 with
  | zero => intro f2 r h; omega
  | succ f ih =>
    intro f2 r h1 h2
    obtain ⟨g, rfl⟩ : ∃ g, f2 = g + 1 := ⟨f2 - 1, by omega⟩
    obtain ⟨⟨u, k⟩⟩ := r
    cases u with
    | nil => rfl
    | cons b rest =>
      simp only [List.length_cons] at h1 h2
      rw [Resp.ReadF, Resp.ReadF, Reader.ReadByte_cons]
      simp only
      split_ifs
      · exact Resp.readArray_congr _ _ _
          (fun r' hr' => ih g r' (by simp only at hr'; omega) (by simp only at hr'; omega))
          (fun r' hr' => Outcome.progress_within _ _
            (Resp.ReadF_progress f r' (by simp only at hr'; omega)))
      · rfl
      · rfl

/-- The method `Read` never runs out of its recursion bound. -/
theorem Resp.Read_ne_diverge (r : Resp) : Resp.Read r ≠ .diverge := by
  intro h
  have hp := Resp.ReadF_progress (r.reader.unread.length + 1) r (Nat.lt_succ_self _)
  unfold Resp.Read at h
  rw [h] at hp
  exact hp

/-- The method `Read`, as the source states it: one `ReadByte`, then `readArray`
(which calls `Read` for every element), `readBulk`, or the default branch. -/
theorem Resp.Read_unfold (r : Resp) :
    Resp.Read r =
      match r.reader.ReadByte with
      | none => .ret Value.zero (some .EOF) r
      | some (_type, rd) =>
        if _type = ARRAY then Resp.readArray Resp.Read ⟨rd⟩
        else if _type = BULK then Resp.readBulk ⟨rd⟩
        else .ret Value.zero none ⟨rd⟩ := by
  obtain ⟨⟨u, k⟩⟩ := r
  cases u with
  | nil => rfl
  | cons b rest =>
    unfold Resp.Read
    rw [Resp.ReadF]
    simp only [Reader.ReadByte_cons]
    split_ifs
    · refine Resp.readArray_congr _ _ _ (fun r' hr' => ?_) (fun r' hr' => ?_)
      · simp only [List.length_cons] at hr' ⊢
        exact Resp.ReadF_fuel _ _ r' (by omega) (Nat.lt_succ_self _)
      · simp only [List.length_cons] at hr' ⊢
        exact Outcome.progress_within _ _ (Resp.ReadF_progress _ r' (by omega))
    · rfl
    · rfl

/-- The loop of `Aof.Read` never runs out of its bound when the bound exceeds
the number of unread bytes. -/
theorem Aof.readLoop_ne_diverge : ∀ (fuel : Nat) (r : Resp) (calls : List Value),
    r.reader.unread.length < fuel → (Aof.readLoop fuel r calls).2.1 ≠ .diverge := by
  intro fuel
  induction fuel with
  | zero => intro r calls h; omega
  | succ f ih =>
    intro r calls h
    have hp := Resp.ReadF_progress (r.reader.unread.length + 1) r (Nat.lt_succ_self _)
    rw [Aof.readLoop]
    unfold Resp.Read
    generalize Resp.ReadF (r.reader.unread.length + 1) r = o at hp
    cases o with
    | ret v err r1 =>
      cases err with
      | none => exact ih r1 _ (by simp only [Outcome.progress] at hp; omega)
      | some e => cases e <;> simp
    | panic => simp
    | diverge => exact absurd hp id


/-! ## The decimal digits of `Itoa` -/

/-- `FormatUint` prints the base-10 digits of a positive number, most
significant first. -/
theorem FormatUint_eq_digits (n : Nat) (h : 0 < n) :
    FormatUint n = ((Nat.digits 10 n).reverse).map digitByte := by
  induction n using Nat.strong_induction_on with
  | _ n ih =>
    rw [Nat.digits_def' (by decide) h]
    by_cases h10 : n < 10
    · rw [FormatUint_small n h10, Nat.mod_eq_of_lt h10, Nat.div_eq_of_lt h10]
      simp
    · rw [FormatUint_big n h10, ih (n / 10) (by omega) (by omega)]
      simp

/-- `FormatUint 0` is the one digit `0`. -/
theorem FormatUint_zero : FormatUint 0 = [48] := rfl

theorem Value.marshalElems_eq_join (vs : List Value) :
    Value.marshalElems vs = (vs.map Value.Marshal).flatten := by
  induction vs with
  | nil => simp [Value.marshalElems]
  | cons v vs ih => rw [Value.marshalElems_cons, ih]; simp

theorem Value.Marshal_of_typ_array (v : Value) (h : v.typ = "array") :
    v.Marshal = ARRAY :: (Itoa v.array.length ++ [CR, LF] ++ Value.marshalElems v.array) := by
  rw [Value.Marshal_array v h]; rfl

theorem Value.Marshal_of_typ_other (v : Value) (h1 : v.typ ≠ "array") (h2 : v.typ ≠ "bulk")
    (h3 : v.typ ≠ "string") (h4 : v.typ ≠ "null") (h5 : v.typ ≠ "error") : v.Marshal = [] := by
  obtain ⟨typ, str, num, bulk, array⟩ := v
  simp only at h1 h2 h3 h4 h5
  simp [Value.Marshal, h1, h2, h3, h4, h5]

/-! ## Claims about the encoder -/

/-- Claim C12: for every value whose `typ` is `"null"`, whatever its other
fields hold, `Marshal` returns exactly the five bytes `$-1\r\n`. -/
theorem Marshal_null (v : Value) (h : v.typ = "null") :
    v.Marshal = [BULK, 45, 49, CR, LF] := by
  obtain ⟨typ, str, num, bulk, array⟩ := v
  simp only at h
  subst h
  simp [Value.Marshal, Value.marshallNull, BULK, CR, LF]

/-- Claim C12, witness: a null value with stray contents in its other fields. -/
theorem Marshal_null_witness :
    (Value.mk "null" [120] 7 [121] [Value.Bulk [97]]).typ = "null" ∧
      (Value.mk "null" [120] 7 [121] [Value.Bulk [97]]).Marshal = [BULK, 45, 49, CR, LF] :=
  ⟨rfl, Marshal_null (Value.mk "null" [120] 7 [121] [Value.Bulk [97]]) rfl⟩

/-- Claim C13: for every value whose `typ` is `"array"`, with elements
`e1 .. en` (`n ≥ 0`), `Marshal` returns `'*'`, the decimal digits of `n`, CR LF
and then the encodings of `e1 .. en` in order, and nothing else. -/
theorem Marshal_array_format (v : Value) (h : v.typ = "array") :
    v.Marshal =
      [ARRAY] ++ Itoa v.array.length ++ [CR, LF] ++ (v.array.map Value.Marshal).flatten := by
  rw [Value.Marshal_of_typ_array v h, Value.marshalElems_eq_join]
  simp

/-- Claim C13, witness: the array of the bulk strings `a` and `b`, and the empty
array. -/
theorem Marshal_array_format_witness :
    (Value.Array [Value.Bulk [97], Value.Bulk [98]]).typ = "array" ∧
      (Value.Array [Value.Bulk [97], Value.Bulk [98]]).Marshal =
        [ARRAY] ++ Itoa (([Value.Bulk [97], Value.Bulk [98]] : List Value).length : Int)
          ++ [CR, LF]
          ++ (([Value.Bulk [97], Value.Bulk [98]] : List Value).map Value.Marshal).flatten :=
  ⟨rfl, Marshal_array_format (Value.Array [Value.Bulk [97], Value.Bulk [98]]) rfl⟩

/-- Claim C14: for every text `s`, `Marshal` of the simple string `s` returns
exactly `'+'`, `s`, CR LF, and `Marshal` of the error `s` returns exactly `'-'`,
`s`, CR LF; the same holds for every value whose `typ` is `"string"` or
`"error"`, with `s = v.str`. -/
theorem Marshal_line_format (s : List Byte) (v w : Value) (hv : v.typ = "string")
    (hw : w.typ = "error") :
    (Value.SimpleString s).Marshal = [STRING] ++ s ++ [CR, LF] ∧
      (Value.Error s).Marshal = [ERROR] ++ s ++ [CR, LF] ∧
      v.Marshal = [STRING] ++ v.str ++ [CR, LF] ∧
      w.Marshal = [ERROR] ++ w.str ++ [CR, LF] := by
  obtain ⟨vt, vs, vn, vb, va⟩ := v
  obtain ⟨wt, ws, wn, wb, wa⟩ := w
  simp only at hv hw
  subst hv hw
  simp [Value.Marshal, Value.marshalString, Value.marshalError, Value.SimpleString,
    Value.Error]

/-- Claim C14, witness: the simple string and the error with the text `OK`. -/
theorem Marshal_line_format_witness :
    (Value.SimpleString [79, 75]).typ = "string" ∧ (Value.Error [79, 75]).typ = "error" ∧
      ((Value.SimpleString [79, 75]).Marshal = [STRING] ++ [79, 75] ++ [CR, LF] ∧
        (Value.Error [79, 75]).Marshal = [ERROR] ++ [79, 75] ++ [CR, LF] ∧
        (Value.SimpleString [79, 75]).Marshal =
          [STRING] ++ (Value.SimpleString [79, 75]).str ++ [CR, LF] ∧
        (Value.Error [79, 75]).Marshal = [ERROR] ++ (Value.Error [79, 75]).str ++ [CR, LF]) :=
  ⟨rfl, rfl,
    Marshal_line_format [79, 75] (Value.SimpleString [79, 75]) (Value.Error [79, 75]) rfl rfl⟩

/-- Claim C15, counterexample: a value tagged `"integer"` that holds the number
5.  `Marshal` has no case for it and returns no byte at all, not `:5\r\n`. -/
theorem Marshal_integer_is_empty :
    (Value.mk "integer" [] 5 [] []).Marshal = [] ∧
      (Value.mk "integer" [] 5 [] []).Marshal ≠ [INTEGER] ++ Itoa 5 ++ [CR, LF] := by
  decide

/-- Claim C15, amended: `Marshal` has no integer case.  Every value whose `typ`
is none of `"array"`, `"bulk"`, `"string"`, `"null"` and `"error"` (an integer
value in particular, whatever number it holds) is encoded as the empty byte
sequence, and no value at all is encoded to a frame that starts with `':'`. -/
theorem Marshal_no_integer_case (v : Value) :
    v.Marshal.head? ≠ some INTEGER ∧
      (v.typ ≠ "array" → v.typ ≠ "bulk" → v.typ ≠ "string" → v.typ ≠ "null" →
        v.typ ≠ "error" → v.Marshal = []) := by
  refine ⟨?_, Value.Marshal_of_typ_other v⟩
  obtain ⟨typ, str, num, bulk, array⟩ := v
  rw [Value.Marshal]
  split_ifs <;>
    simp [Value.marshalBulk, Value.marshalString, Value.marshallNull, Value.marshalError,
      ARRAY, BULK, STRING, ERROR, INTEGER]

/-- Claim C15, witness: the value tagged `"integer"` that holds 5. -/
theorem Marshal_no_integer_case_witness :
    (Value.mk "integer" [] 5 [] []).typ ≠ "array" ∧
      (Value.mk "integer" [] 5 [] []).typ ≠ "bulk" ∧
      (Value.mk "integer" [] 5 [] []).typ ≠ "string" ∧
      (Value.mk "integer" [] 5 [] []).typ ≠ "null" ∧
      (Value.mk "integer" [] 5 [] []).typ ≠ "error" ∧
      (Value.mk "integer" [] 5 [] []).Marshal.head? ≠ some INTEGER ∧
      (Value.mk "integer" [] 5 [] []).Marshal = [] :=
  ⟨by decide, by decide, by decide, by decide, by decide,
    (Marshal_no_integer_case (Value.mk "integer" [] 5 [] [])).1,
    (Marshal_no_integer_case (Value.mk "integer" [] 5 [] [])).2 (by decide) (by decide)
      (by decide) (by decide) (by decide)⟩


/-! ## `ParseInt` against the specification's integers -/

theorem foldl_digits_ge (ds : List Byte) : ∀ acc : Nat,
    acc ≤ ds.foldl (fun acc b => acc * 10 + (b.toNat - 48)) acc := by
  induction ds with
  | nil => intro acc; exact Nat.le_refl _
  | cons c cs ih =>
    intro acc
    simp only [List.foldl_cons]
    exact Nat.le_trans (by omega) (ih _)

/-- The digit loop of `ParseUint` succeeds exactly on strings of decimal digits
whose value stays in the `uint64` range, and then returns that value. -/
theorem parseUintLoop_none_iff (ds : List Byte) : ∀ acc : Nat, acc ≤ maxUint64 →
    ((parseUintLoop ds acc).2 = none ↔
      (ds.all isDecimalDigit = true ∧
        ds.foldl (fun acc b => acc * 10 + (b.toNat - 48)) acc ≤ maxUint64)) ∧
    ((parseUintLoop ds acc).2 = none →
      (parseUintLoop ds acc).1 = ds.foldl (fun acc b => acc * 10 + (b.toNat - 48)) acc) := by
  induction ds with
  | nil => intro acc h; simp [parseUintLoop, h]
  | cons c cs ih =>
    intro acc hacc
    have hge := foldl_digits_ge cs (acc * 10 + (c.toNat - 48))
    simp only [parseUintLoop, List.all_cons, List.foldl_cons, Bool.and_eq_true]
    by_cases hd : 48 ≤ c.toNat ∧ c.toNat ≤ 57
    · have hd' : isDecimalDigit c = true := by simp [isDecimalDigit, hd]
      rw [if_pos hd]
      by_cases h1 : acc ≥ maxUint64 / 10 + 1
      · rw [if_pos h1]
        simp only [maxUint64] at h1 hge ⊢
        refine ⟨⟨fun h => by simp at h, fun h => ?_⟩, fun h => by simp at h⟩
        omega
      · rw [if_neg h1]
        by_cases h2 : acc * 10 + (c.toNat - 48) > maxUint64
        · rw [if_pos h2]
          refine ⟨⟨fun h => by simp at h, fun h => ?_⟩, fun h => by simp at h⟩
          omega
        · rw [if_neg h2]
          have := ih (acc * 10 + (c.toNat - 48)) (by omega)
          simp only [hd', true_and]
          exact this
    · have hd' : ¬ isDecimalDigit c = true := by simp [isDecimalDigit, hd]
      rw [if_neg hd]
      exact ⟨⟨fun h => by simp at h, fun h => absurd h.1.1 hd'⟩, fun h => by simp at h⟩

/-- A range error of the digit loop comes with the value `maxUint64`, and the
loop never reports `io.EOF`. -/
theorem parseUintLoop_err (ds : List Byte) : ∀ acc : Nat,
    ((parseUintLoop ds acc).2 = some Err.ErrRange → (parseUintLoop ds acc).1 = maxUint64) ∧
      (parseUintLoop ds acc).2 ≠ some Err.EOF := by
  induction ds with
  | nil => intro acc; simp [parseUintLoop]
  | cons c cs ih =>
    intro acc
    simp only [parseUintLoop]
    split_ifs
    · simp
    · simp
    · exact ih _
    · simp

/-- `ParseInt` accepts exactly the specification's integers, with their value,
and rejects every other text with a syntax or a range error. -/
theorem ParseInt_spec (s : List Byte) :
    (∀ i, specInt64 s = some i → ParseInt s = (i, none)) ∧
      (specInt64 s = none →
        (ParseInt s).2 = some Err.ErrSyntax ∨ (ParseInt s).2 = some Err.ErrRange) := by
  cases s with
  | nil => simp [specInt64, ParseInt]
  | cons c cs =>
    simp only [specInt64, ParseInt, ParseUint, decimalValue]
    generalize hds : (if c = 43 ∨ c = 45 then cs else c :: cs) = ds
    by_cases hnil : ds = []
    · subst hnil
      simp
    · have hiff := parseUintLoop_none_iff ds 0 (Nat.zero_le _)
      have herr := parseUintLoop_err ds 0
      simp only [hnil, if_false, ne_eq, not_false_eq_true, true_and]
      generalize hres : parseUintLoop ds 0 = res at hiff herr
      obtain ⟨un, err⟩ := res
      simp only at hiff herr ⊢
      generalize hval : ds.foldl (fun acc b => acc * 10 + (b.toNat - 48)) 0 = val at hiff
      cases err with
      | none =>
        have hall := (hiff.1.1 rfl).1
        have hun : un = val := hiff.2 rfl
        subst hun
        simp only [hall, true_and, ne_eq, not_true_eq_false, false_and, if_false]
        by_cases hneg : c = 45
        · simp only [hneg, decide_True, Bool.not_true, Bool.false_and, Bool.true_and,
            if_true, decide_eq_true_eq]
          by_cases hr : un > 2 ^ 63
          · simp only [hr, if_true]
            refine ⟨fun i hi => ?_, fun _ => Or.inr rfl⟩
            split_ifs at hi
            omega
          · simp only [hr, if_false]
            refine ⟨fun i hi => ?_, fun hi => ?_⟩
            · split_ifs at hi with h1
              · simpa using hi
            · split_ifs at hi with h1
              omega
        · simp only [hneg, decide_False, Bool.not_false, Bool.true_and, Bool.false_and,
            if_false, decide_eq_true_eq]
          by_cases hr : un ≥ 2 ^ 63
          · simp only [hr, if_true]
            refine ⟨fun i hi => ?_, fun _ => Or.inr trivial⟩
            split_ifs at hi
            omega
          · simp only [hr, if_false]
            refine ⟨fun i hi => ?_, fun hi => ?_⟩
            · split_ifs at hi with h1
              · simpa using hi
            · split_ifs at hi with h1
              omega
      | some e =>
        have hnot : ¬ (ds.all isDecimalDigit = true ∧ val ≤ maxUint64) := by
          intro h
          have := hiff.1.2 h
          simp at this
        have hspec : ¬ (ds.all isDecimalDigit = true ∧
            -(2 ^ 63 : Int) ≤ (if c = 45 then -(val : Int) else (val : Int)) ∧
            (if c = 45 then -(val : Int) else (val : Int)) < 2 ^ 63) := by
          rintro ⟨h1, h2, h3⟩
          apply hnot
          refine ⟨h1, ?_⟩
          simp only [maxUint64]
          split_ifs at h2 h3 <;> omega
        rw [if_neg hspec]
        refine ⟨fun i hi => by simp at hi, fun _ => ?_⟩
        cases e with
        | EOF => exact absurd rfl herr.2
        | ErrSyntax => left; simp
        | ErrRange =>
          right
          have hun : un = maxUint64 := herr.1 rfl
          subst hun
          simp only [ne_eq, reduceCtorEq, not_false_eq_true, not_true_eq_false, and_false,
            if_false, maxUint64]
          by_cases hneg : c = 45
          · simp [hneg]
          · simp [hneg]

/-- The method `readInteger` on a stream that starts with a line `line` without
CR, the CR and one more byte: the line is handed to `ParseInt`. -/
theorem Resp.readInteger_line (line : List Byte) (x : Byte) (rest : List Byte) (k : Nat)
    (hline : ∀ b ∈ line, b ≠ CR) :
    Resp.readInteger ⟨⟨line ++ CR :: x :: rest, k⟩⟩ =
      ((if (ParseInt line).2 = none then ((ParseInt line).1, line.length + 2, none)
          else (0, line.length + 2, (ParseInt line).2)),
        ⟨⟨rest, bufferedAfter k (line.length + 2 + rest.length) (line.length + 2)⟩⟩) := by
  simp only [Resp.readInteger, Resp.readLine]
  rw [Resp.readLineLoop_line line x rest [] 0 k hline (by simp)]
  simp only [List.nil_append, Nat.zero_add]
  generalize ParseInt line = p
  obtain ⟨i, err⟩ := p
  cases err <;> simp

/-- The method `Read` on a frame whose header line is rejected by `ParseInt`:
the error of `ParseInt` is returned. -/
theorem Resp.Read_header_error (line : List Byte) (x : Byte) (rest : List Byte) (k : Nat)
    (e : Err) (hline : ∀ b ∈ line, b ≠ CR) (he : (ParseInt line).2 = some e) :
    ∃ r, Resp.Read ⟨⟨ARRAY :: (line ++ CR :: x :: rest), k⟩⟩ =
        .ret (Value.Array []) (some e) r ∧
      Resp.Read ⟨⟨BULK :: (line ++ CR :: x :: rest), k⟩⟩ = .ret (Value.Bulk []) (some e) r ∧
      r.reader.unread = rest := by
  refine ⟨⟨⟨rest, bufferedAfter (filled k ((line ++ CR :: x :: rest).length + 1) - 1)
    (line.length + 2 + rest.length) (line.length + 2)⟩⟩, ?_, ?_, rfl⟩
  · simp only [Resp.Read, Resp.ReadF, Reader.ReadByte_cons, if_true, Resp.readArray,
      Resp.readInteger_line line x rest _ hline, he]
    rfl
  · simp only [Resp.Read, Resp.ReadF, Reader.ReadByte_cons, show ¬ BULK = ARRAY by decide,
      if_false, if_true, Resp.readBulk, Resp.readInteger_line line x rest _ hline, he]
    rfl

/-! ## Claims about header lines -/

/-- Claim C11, counterexample: the stream `$1\rX2\r\n`.  The line in front of
its CR LF is `1\rX2`, which is no integer, but `readLine` ends the header at
the first CR and the byte behind it, `ParseInt` gets `1`, and `Read` returns
the bulk string `2` without a decode error. -/
theorem Read_header_with_inner_CR :
    specInt64 [49, 13, 88, 50] = none ∧
      Resp.Read (NewResp [36, 49, 13, 88, 50, 13, 10]) =
        .ret (Value.Bulk [50]) none ⟨⟨[], 0⟩⟩ := by
  decide

/-- Claim C11, amended: for every stream that starts with `'*'` or `'$'`
followed by a line that holds no CR and is ended by a CR and one more byte
(CR LF in well-formed input): when the line `bad` is not a valid base-10
signed 64-bit integer, `Read` returns a decode error, the syntax or the range
error of `ParseInt` and not `io.EOF`; and when the line `good` is the valid
integer `i`, `readInteger` returns exactly `i`, with no error. -/
theorem Read_malformed_header (bad good : List Byte) (i : Int) (x : Byte) (rest : List Byte)
    (k : Nat) (hbad : ∀ b ∈ bad, b ≠ CR) (hgood : ∀ b ∈ good, b ≠ CR)
    (hb : specInt64 bad = none) (hg : specInt64 good = some i) :
    (∃ e r, e ≠ Err.EOF ∧
        Resp.Read ⟨⟨ARRAY :: (bad ++ CR :: x :: rest), k⟩⟩ = .ret (Value.Array []) (some e) r ∧
        Resp.Read ⟨⟨BULK :: (bad ++ CR :: x :: rest), k⟩⟩ = .ret (Value.Bulk []) (some e) r) ∧
      ∃ r, Resp.readInteger ⟨⟨good ++ CR :: x :: rest, k⟩⟩ = ((i, good.length + 2, none), r) ∧
        r.reader.unread = rest := by
  constructor
  · rcases (ParseInt_spec bad).2 hb with he | he
    · obtain ⟨r, h1, h2, _⟩ := Resp.Read_header_error bad x rest k _ hbad he
      exact ⟨_, r, by decide, h1, h2⟩
    · obtain ⟨r, h1, h2, _⟩ := Resp.Read_header_error bad x rest k _ hbad he
      exact ⟨_, r, by decide, h1, h2⟩
  · refine ⟨⟨⟨rest, bufferedAfter k (good.length + 2 + rest.length) (good.length + 2)⟩⟩,
      ?_, rfl⟩
    rw [Resp.readInteger_line good x rest k hgood, (ParseInt_spec good).1 i hg]
    rfl

/-- Claim C11, witness: the headers `1x` (not a number) and `-12`. -/
theorem Read_malformed_header_witness :
    (∀ b ∈ ([49, 120] : List Byte), b ≠ CR) ∧ (∀ b ∈ ([45, 49, 50] : List Byte), b ≠ CR) ∧
      specInt64 [49, 120] = none ∧ specInt64 [45, 49, 50] = some (-12) ∧
      ((∃ e r, e ≠ Err.EOF ∧
          Resp.Read ⟨⟨ARRAY :: ([49, 120] ++ CR :: LF :: []), 0⟩⟩ =
            .ret (Value.Array []) (some e) r ∧
          Resp.Read ⟨⟨BULK :: ([49, 120] ++ CR :: LF :: []), 0⟩⟩ =
            .ret (Value.Bulk []) (some e) r) ∧
        ∃ r, Resp.readInteger ⟨⟨[45, 49, 50] ++ CR :: LF :: [], 0⟩⟩ =
            ((-12, ([45, 49, 50] : List Byte).length + 2, none), r) ∧
          r.reader.unread = []) :=
  ⟨by decide, by decide, by decide, by decide,
    Read_malformed_header [49, 120] [45, 49, 50] (-12) LF [] 0 (by decide) (by decide)
      (by decide) (by decide)⟩

/-- Claim C17, counterexample: the stream `a\rb\r\n`.  The bytes in front of its
first CR LF are `a\rb`, but `readLine` returns the line `a` and reports 3 bytes:
the CR behind `a` ends the line although `b` follows it, not LF. -/
theorem readLine_ends_at_bare_CR :
    Resp.readLine (NewResp [97, 13, 98, 13, 10]) = (([97], 3, none), ⟨⟨[13, 10], 2⟩⟩) := by
  decide

/-- Claim C17, amended: for every stream that holds a CR followed by at least
one more byte, `readLine` returns as line content exactly the bytes `l` in
front of the first CR, takes the stream up to and including the one byte `x`
behind that CR, whatever it is, and no further, and reports `len(l) + 2` bytes;
when `x` is LF these are the bytes in front of the first CR LF. -/
theorem readLine_first_CR (l : List Byte) (x : Byte) (rest : List Byte) (k : Nat)
    (hl : ∀ b ∈ l, b ≠ CR) :
    ∃ r, Resp.readLine ⟨⟨l ++ CR :: x :: rest, k⟩⟩ = ((l, l.length + 2, none), r) ∧
      r.reader.unread = rest := by
  refine ⟨⟨⟨rest, bufferedAfter k (l.length + 2 + rest.length) (l.length + 2)⟩⟩, ?_, rfl⟩
  simp only [Resp.readLine]
  rw [Resp.readLineLoop_line l x rest [] 0 k hl (by simp)]
  simp

/-- Claim C17, witness: the line `*2` of the stream `*2\r\n$1`. -/
theorem readLine_first_CR_witness :
    (∀ b ∈ ([42, 50] : List Byte), b ≠ CR) ∧
      ∃ r, Resp.readLine ⟨⟨[42, 50] ++ CR :: LF :: [36, 49], 0⟩⟩ =
          (([42, 50], ([42, 50] : List Byte).length + 2, none), r) ∧
        r.reader.unread = [36, 49] :=
  ⟨by decide, readLine_first_CR [42, 50] LF [36, 49] 0 (by decide)⟩


/-! ## Replay twice -/

/-- A replay depends on the content of the file only, not on where the handle
stands. -/
theorem Aof.Read_content (a b : Aof) (h : a.file.content = b.file.content) :
    Aof.Read a = Aof.Read b := by
  simp only [Aof.Read, h]

/-- A replay leaves the content of the file as it is. -/
theorem Aof.Read_keeps_content (aof : Aof) :
    (Aof.Read aof).2.2.file.content = aof.file.content := by
  simp only [Aof.Read]

/-- Claim C16: for every log file content and every offset of the handle, a
second `Aof.Read` right after a first one, with no `Write` in between, calls
`fn` with the same values in the same order and ends the same way; and the
replay started at any other offset of the handle gives the same result, since
`Aof.Read` first seeks to byte 0 and reads through a new `Resp`. -/
theorem Aof_Read_idempotent (aof : Aof) (offset : Nat) :
    (Aof.Read (Aof.Read aof).2.2).1 = (Aof.Read aof).1 ∧
      (Aof.Read (Aof.Read aof).2.2).2.1 = (Aof.Read aof).2.1 ∧
      Aof.Read ⟨⟨aof.file.content, offset⟩⟩ = Aof.Read aof := by
  have h := Aof.Read_content (Aof.Read aof).2.2 aof (Aof.Read_keeps_content aof)
  exact ⟨by rw [h], by rw [h], Aof.Read_content _ _ rfl⟩

/-! ## No null values -/

theorem Value.noNullList_append (a b : List Value) :
    Value.noNullList (a ++ b) = (Value.noNullList a && Value.noNullList b) := by
  induction a with
  | nil => simp [Value.noNullList]
  | cons v vs ih => simp [Value.noNullList, ih, Bool.and_assoc]

theorem Value.noNull_mk (typ : String) (str : List Byte) (num : Int) (bulk : List Byte)
    (array : List Value) :
    Value.noNull ⟨typ, str, num, bulk, array⟩ =
      (decide (typ ≠ "null") && Value.noNullList array) := by
  rw [Value.noNull]

theorem Resp.readBulk_noNull (r : Resp) : (Resp.readBulk r).noNull := by
  simp only [Resp.readBulk]
  generalize Resp.readInteger r = res
  obtain ⟨⟨len, n, err⟩, r1⟩ := res
  cases err with
  | some e => simp [Outcome.noNull, Value.noNull_mk, Value.noNullList]
  | none =>
    simp only
    split_ifs
    · trivial
    · simp [Outcome.noNull, Value.noNull_mk, Value.noNullList]

theorem Resp.readArrayLoop_noNull (read : Resp → Outcome) (hread : ∀ r, (read r).noNull) :
    ∀ (k : Nat) (v : Value) (r : Resp), Value.noNull v = true →
      (Resp.readArrayLoop read k v r).noNull := by
  intro k
  induction k with
  | zero => intro v r hv; exact hv
  | succ k ih =>
    intro v r hv
    have h := hread r
    rw [Resp.readArrayLoop]
    generalize read r = o at h
    cases o with
    | ret val err r1 =>
      cases err with
      | none =>
        apply ih
        obtain ⟨typ, str, num, bulk, array⟩ := v
        rw [Value.noNull_mk] at hv ⊢
        simp only [Outcome.noNull] at h
        simp only [Value.noNullList_append, Value.noNullList, h, Bool.and_true]
        exact hv
      | some e => exact hv
    | panic => trivial
    | diverge => trivial

theorem Resp.readArray_noNull (read : Resp → Outcome) (hread : ∀ r, (read r).noNull)
    (r : Resp) : (Resp.readArray read r).noNull := by
  simp only [Resp.readArray]
  generalize Resp.readInteger r = res
  obtain ⟨⟨len, n, err⟩, r1⟩ := res
  cases err with
  | some e => simp [Outcome.noNull, Value.noNull_mk, Value.noNullList]
  | none =>
    exact Resp.readArrayLoop_noNull read hread _ _ r1
      (by simp [Value.noNull_mk, Value.noNullList])

theorem Resp.ReadF_noNull : ∀ (fuel : Nat) (r : Resp), (Resp.ReadF fuel r).noNull := by
  intro fuel
  induction fuel with
  | zero => intro r; trivial
  | succ f ih =>
    intro r
    rw [Resp.ReadF]
    cases r.reader.ReadByte with
    | none => simp [Outcome.noNull, Value.zero, Value.noNull_mk, Value.noNullList]
    | some p =>
      obtain ⟨t, rd⟩ := p
      simp only
      split_ifs
      · exact Resp.readArray_noNull _ ih _
      · exact Resp.readBulk_noNull _
      · simp [Outcome.noNull, Value.zero, Value.noNull_mk, Value.noNullList]

/-- The method `Read` on a frame whose header line is the integer `i`: what
`readArray` and `readBulk` do with it. -/
theorem Resp.Read_header_value (line : List Byte) (x : Byte) (rest : List Byte) (k : Nat)
    (i : Int) (hline : ∀ b ∈ line, b ≠ CR) (hi : ParseInt line = (i, none)) :
    ∃ r, r.reader.unread = rest ∧
      Resp.Read ⟨⟨ARRAY :: (line ++ CR :: x :: rest), k⟩⟩ =
        Resp.readArrayLoop (Resp.ReadF ((line ++ CR :: x :: rest).length + 1)) i.toNat
          ⟨"array", [], 0, [], []⟩ r ∧
      Resp.Read ⟨⟨BULK :: (line ++ CR :: x :: rest), k⟩⟩ =
        if i < 0 ∨ i > maxAlloc then .panic
        else .ret ⟨"bulk", [], 0, (r.reader.Read i.toNat).1, []⟩ none
          (Resp.readLine ⟨(r.reader.Read i.toNat).2⟩).2 := by
  refine ⟨⟨⟨rest, bufferedAfter (filled k ((line ++ CR :: x :: rest).length + 1) - 1)
    (line.length + 2 + rest.length) (line.length + 2)⟩⟩, rfl, ?_, ?_⟩
  · simp only [Resp.Read, Resp.ReadF, Reader.ReadByte_cons, if_true, Resp.readArray,
      Resp.readInteger_line line x rest _ hline, hi, List.length_cons]
  · simp only [Resp.Read, Resp.ReadF, Reader.ReadByte_cons, show ¬ BULK = ARRAY by decide,
      if_false, if_true, Resp.readBulk, Resp.readInteger_line line x rest _ hline, hi]

/-- Claim C18: for every input stream, a value `Read` returns has no node of
variant Null at any nesting level; a `'*'` frame whose count header `line` is a
negative integer returns an array with zero elements and no error, with the
stream standing right behind the header line, so no element was read; and a
`'$'` frame whose length header is negative (such as `$-1\r\n`) returns no
value at all: the allocation `make([]byte, len)` panics. -/
theorem Read_never_null (r : Resp) (line : List Byte) (x : Byte) (rest : List Byte) (k : Nat)
    (i : Int) (hline : ∀ b ∈ line, b ≠ CR) (hi : specInt64 line = some i) (hneg : i < 0) :
    (Resp.Read r).noNull ∧
      (∃ r', Resp.Read ⟨⟨ARRAY :: (line ++ CR :: x :: rest), k⟩⟩ =
          .ret (Value.Array []) none r' ∧ r'.reader.unread = rest) ∧
      Resp.Read ⟨⟨BULK :: (line ++ CR :: x :: rest), k⟩⟩ = .panic := by
  obtain ⟨r', hr', ha, hb⟩ := Resp.Read_header_value line x rest k i hline
    ((ParseInt_spec line).1 i hi)
  refine ⟨Resp.ReadF_noNull _ r, ⟨r', ?_, hr'⟩, ?_⟩
  · rw [ha, Int.toNat_of_nonpos (by omega)]
    rfl
  · rw [hb, if_pos (Or.inl hneg)]

/-- Claim C18, witness: the header `-1` behind `'*'` and behind `'$'`, and the
nested stream `*1\r\n$-1\r\n` for the first part. -/
theorem Read_never_null_witness :
    (∀ b ∈ ([45, 49] : List Byte), b ≠ CR) ∧ specInt64 [45, 49] = some (-1) ∧
      ((-1 : Int) < 0) ∧
      ((Resp.Read (NewResp [42, 49, 13, 10, 36, 45, 49, 13, 10])).noNull ∧
        (∃ r', Resp.Read ⟨⟨ARRAY :: ([45, 49] ++ CR :: LF :: [36, 49]), 0⟩⟩ =
            .ret (Value.Array []) none r' ∧ r'.reader.unread = [36, 49]) ∧
        Resp.Read ⟨⟨BULK :: ([45, 49] ++ CR :: LF :: [36, 49]), 0⟩⟩ = .panic) :=
  ⟨by decide, by decide, by decide,
    Read_never_null (NewResp [42, 49, 13, 10, 36, 45, 49, 13, 10]) [45, 49] LF [36, 49] 0 (-1)
      (by decide) (by decide) (by decide)⟩

/-! ## Termination -/

/-- A replay never runs out of its loop bound. -/
theorem Aof.replay_ne_diverge (aof : Aof) : (Aof.Read aof).2.1 ≠ .diverge := by
  have h := Aof.readLoop_ne_diverge (aof.file.content.length + 1) (NewResp aof.file.content) []
    (Nat.lt_succ_self _)
  simpa [Aof.Read] using h

/-- The loop of `readArray` does not depend on a count that exceeds the number
of unread bytes: every turn that goes on has taken a byte, so the loop ends
with the stream, not with the count. -/
theorem Resp.readArrayLoop_count (read : Resp → Outcome) (N : Nat)
    (hread : ∀ r : Resp, r.reader.unread.length ≤ N →
      (read r).progress r.reader.unread.length) :
    ∀ (k k' : Nat) (v : Value) (r : Resp), r.reader.unread.length ≤ N →
      r.reader.unread.length < k → r.reader.unread.length < k' →
      Resp.readArrayLoop read k v r = Resp.readArrayLoop read k' v r := by
  intro k
  induction k with
  | zero => intro k' v r _ h; omega
  | succ j ih =>
    intro k' v r hN hk hk'
    obtain ⟨j', rfl⟩ : ∃ j', k' = j' + 1 := ⟨k' - 1, by omega⟩
    have h := hread r hN
    rw [Resp.readArrayLoop, Resp.readArrayLoop]
    generalize read r = o at h
    cases o with
    | ret val err r1 =>
      cases err with
      | none =>
        simp only [Outcome.progress] at h
        exact ih j' _ r1 (by omega) (by omega) (by omega)
      | some e => rfl
    | panic => rfl
    | diverge => rfl

/-- Claim C19: for every reader state, whatever count an array header declares
and however deep the arrays are nested, `Read` ends: it never uses up its
recursion bound; a `Read` that returns without error has taken at least one
byte off the stream; and `Aof.Read` over every log file ends as well. -/
theorem Read_terminates (r : Resp) (aof : Aof) :
    Resp.Read r ≠ .diverge ∧
      (Resp.Read r).progress r.reader.unread.length ∧
      (Aof.Read aof).2.1 ≠ .diverge :=
  ⟨Resp.Read_ne_diverge r,
    Resp.ReadF_progress (r.reader.unread.length + 1) r (Nat.lt_succ_self _),
    Aof.replay_ne_diverge aof⟩

/-! ## Panics -/

/-- When `readLine` returns a line, the bytes it has appended are the line and
two more: the slice `line[:len(line)-2]` is taken of at least two bytes. -/
theorem Resp.readLineLoop_count (u : List Byte) : ∀ (k : Nat) (line : List Byte) (n : Nat)
    (l : List Byte) (n' : Nat) (r : Resp), line.length = n →
      Resp.readLineLoop u k line n = ((l, n', none), r) → n' = l.length + 2 := by
  induction u with
  | nil => intro k line n l n' r _ h; simp [Resp.readLineLoop] at h
  | cons b rest ih =>
    intro k line n l n' r hn h
    rw [Resp.readLineLoop_cons] at h
    split_ifs at h with hstop
    · simp only [Prod.mk.injEq] at h
      obtain ⟨⟨h1, h2, _⟩, _⟩ := h
      have hlen : (line ++ [b]).length = n + 1 := by simp [hn]
      rw [hlen] at hstop h1
      rw [← h1, ← h2, List.length_take, hlen]
      omega
    · exact ih _ _ _ l n' r (by simp [hn]) h

/-- The method `readBulk` panics exactly when `readInteger` has returned,
without error, a length that is negative or above `maxAlloc`. -/
theorem Resp.readBulk_panic_iff (r : Resp) :
    Resp.readBulk r = .panic ↔
      (Resp.readInteger r).1.2.2 = none ∧
        ((Resp.readInteger r).1.1 < 0 ∨ (Resp.readInteger r).1.1 > maxAlloc) := by
  simp only [Resp.readBulk]
  generalize Resp.readInteger r = res
  obtain ⟨⟨len, n, err⟩, r1⟩ := res
  cases err with
  | some e => simp
  | none =>
    simp only
    split_ifs with h
    · simp [h]
    · simp [h]

theorem Run.agrees_prepend (canAlloc : Nat → Bool) (o : Outcome) (e : Run) (hs hs1 : List Int)
    (hok : ∀ len ∈ hs, allocOk canAlloc len) (h : Run.agrees canAlloc o (e, hs1)) :
    Run.agrees canAlloc o (e, hs ++ hs1) := by
  cases e with
  | done o' =>
    obtain ⟨ho, hcase⟩ := h
    refine ⟨ho, ?_⟩
    rcases hcase with ⟨hp, init, last, heq, hinit, hbad⟩ | ⟨hp, hall⟩
    · left
      refine ⟨hp, hs ++ init, last, by rw [heq, List.append_assoc], ?_, hbad⟩
      intro len hlen
      rcases List.mem_append.1 hlen with h1 | h1
      · exact hok len h1
      · exact hinit len h1
    · right
      refine ⟨hp, ?_⟩
      intro len hlen
      rcases List.mem_append.1 hlen with h1 | h1
      · exact hok len h1
      · exact hall len h1
  | fatal =>
    obtain ⟨init, last, heq, hinit, h0, h1, h2⟩ := h
    refine ⟨hs ++ init, last, by rw [heq, List.append_assoc], ?_, h0, h1, h2⟩
    intro len hlen
    rcases List.mem_append.1 hlen with h3 | h3
    · exact hok len h3
    · exact hinit len h3

/-- `readBulkMem` is `readBulk` as far as the memory allows, and its list
accounts for the panic and for the end of the process. -/
theorem Resp.readBulkMem_agrees (canAlloc : Nat → Bool) (r : Resp) :
    Run.agrees canAlloc (Resp.readBulk r) (Resp.readBulkMem canAlloc r) := by
  have hp := Resp.readBulk_panic_iff r
  unfold Resp.readBulkMem
  generalize Resp.readInteger r = res at hp
  obtain ⟨⟨len, n, err⟩, r1⟩ := res
  simp only at hp
  cases err with
  | some e =>
    simp only
    refine ⟨rfl, Or.inr ⟨?_, by simp⟩⟩
    intro h
    have := hp.1 h
    simp at this
  | none =>
    simp only [true_and] at hp
    simp only
    by_cases hf : 0 ≤ len ∧ len ≤ maxAlloc ∧ canAlloc len.toNat = false
    · rw [if_pos hf]
      exact ⟨[], len, rfl, by simp, hf.1, hf.2.1, hf.2.2⟩
    · rw [if_neg hf]
      refine ⟨rfl, ?_⟩
      by_cases hpanic : Resp.readBulk r = .panic
      · exact Or.inl ⟨hpanic, [], len, rfl, by simp, hp.1 hpanic⟩
      · refine Or.inr ⟨hpanic, ?_⟩
        have hrange : ¬ (len < 0 ∨ len > maxAlloc) := fun h => hpanic (hp.2 h)
        intro l hl
        simp only [List.mem_singleton] at hl
        subst hl
        refine ⟨by omega, by omega, ?_⟩
        by_contra hc
        exact hf ⟨by omega, by omega, by simpa using hc⟩

theorem Resp.readArrayLoopMem_agrees (canAlloc : Nat → Bool) (read : Resp → Outcome)
    (readM : Resp → Run × List Int)
    (hread : ∀ r, Run.agrees canAlloc (read r) (readM r)) :
    ∀ (k : Nat) (v : Value) (r : Resp) (hs : List Int),
      (∀ len ∈ hs, allocOk canAlloc len) →
      Run.agrees canAlloc (Resp.readArrayLoop read k v r)
        (Resp.readArrayLoopMem readM k v r hs) := by
  intro k
  induction k with
  | zero =>
    intro v r hs hok
    exact ⟨rfl, Or.inr ⟨by simp [Resp.readArrayLoop], hok⟩⟩
  | succ k ih =>
    intro v r hs hok
    have h := hread r
    rw [Resp.readArrayLoop, Resp.readArrayLoopMem]
    generalize read r = o at h
    generalize readM r = p at h
    obtain ⟨e, hs1⟩ := p
    cases e with
    | fatal =>
      simp only
      exact Run.agrees_prepend canAlloc _ .fatal hs hs1 hok h
    | done o' =>
      obtain ⟨ho, hcase⟩ := h
      subst ho
      cases o' with
      | ret val err r1 =>
        have hall : ∀ len ∈ hs ++ hs1, allocOk canAlloc len := by
          rcases hcase with ⟨hp, _⟩ | ⟨_, hall⟩
          · simp at hp
          · intro len hlen
            rcases List.mem_append.1 hlen with h1 | h1
            · exact hok len h1
            · exact hall len h1
        cases err with
        | none => exact ih _ r1 _ hall
        | some e => exact ⟨rfl, Or.inr ⟨by simp, hall⟩⟩
      | panic =>
        simp only
        exact Run.agrees_prepend canAlloc .panic (.done .panic) hs hs1 hok ⟨rfl, hcase⟩
      | diverge =>
        simp only
        exact Run.agrees_prepend canAlloc .diverge (.done .diverge) hs hs1 hok ⟨rfl, hcase⟩

theorem Resp.readArrayMem_agrees (canAlloc : Nat → Bool) (read : Resp → Outcome)
    (readM : Resp → Run × List Int)
    (hread : ∀ r, Run.agrees canAlloc (read r) (readM r)) (r : Resp) :
    Run.agrees canAlloc (Resp.readArray read r) (Resp.readArrayMem readM r) := by
  simp only [Resp.readArray, Resp.readArrayMem]
  generalize Resp.readInteger r = res
  obtain ⟨⟨len, n, err⟩, r1⟩ := res
  cases err with
  | some e => exact ⟨rfl, Or.inr ⟨by simp, by simp⟩⟩
  | none => exact Resp.readArrayLoopMem_agrees canAlloc read readM hread _ _ r1 [] (by simp)

/-- The decoder with memory is the decoder `ReadF` as far as the memory allows,
and its list of parsed `'$'` lengths accounts for how it ends. -/
theorem Resp.ReadMemF_agrees (canAlloc : Nat → Bool) : ∀ (fuel : Nat) (r : Resp),
    Run.agrees canAlloc (Resp.ReadF fuel r) (Resp.ReadMemF canAlloc fuel r) := by
  intro fuel
  induction fuel with
  | zero => intro r; exact ⟨rfl, Or.inr ⟨by simp [Resp.ReadF], by simp⟩⟩
  | succ f ih =>
    intro r
    rw [Resp.ReadF, Resp.ReadMemF]
    cases r.reader.ReadByte with
    | none => exact ⟨rfl, Or.inr ⟨by simp, by simp⟩⟩
    | some p =>
      obtain ⟨t, rd⟩ := p
      simp only
      split_ifs
      · exact Resp.readArrayMem_agrees canAlloc _ _ ih _
      · exact Resp.readBulkMem_agrees canAlloc _
      · exact ⟨rfl, Or.inr ⟨by simp, by simp⟩⟩

theorem Resp.ReadMem_agrees (canAlloc : Nat → Bool) (r : Resp) :
    Run.agrees canAlloc (Resp.Read r) (Resp.ReadMem canAlloc r) :=
  Resp.ReadMemF_agrees canAlloc _ r

/-- The stream `$3\r\n$-5\r\n`: the only header `readBulk` parses is 3, the
bytes `$-5` are payload, and `Read` returns them as a bulk string. -/
theorem ReadMem_payload_dollar_example :
    Resp.ReadMem (fun _ => true) (NewResp [36, 51, 13, 10, 36, 45, 53, 13, 10]) =
      (.done (.ret (Value.Bulk [36, 45, 53]) none ⟨⟨[], 0⟩⟩), [3]) := by
  decide

/-- The stream `$281474976710656\r\n` (`2^48`) in a process that can allocate
at most `2^30` bytes at once: the length passes the check of `make`, and the
process ends with `fatal error: out of memory`. -/
theorem ReadMem_out_of_memory_example :
    Resp.ReadMem (fun n => decide (n ≤ 2 ^ 30)) (NewResp [36, 50, 56, 49, 52, 55, 52, 57, 55, 54, 55, 49, 48, 54, 53, 54, 13, 10]) =
      (.fatal, [281474976710656]) := by
  decide

/-! ## Claims about panics -/

/-- Claim C20, counterexample: the stream `$9223372036854775807\r\n`.  The one
`'$'` header `Read` parses is not negative, but `make([]byte, len)` with this
length is the runtime panic `makeslice: len out of range`, whatever the memory
of the process, so `Read` does not return. -/
theorem Read_huge_bulk_header_panics :
    (Resp.ReadMem (fun _ => true) (NewResp [36, 57, 50, 50, 51, 51, 55, 50, 48, 51, 54, 56, 53, 52, 55, 55, 53, 56, 48, 55, 13, 10])).2 = [9223372036854775807] ∧
      (0 : Int) ≤ 9223372036854775807 ∧
      Resp.Read (NewResp [36, 57, 50, 50, 51, 51, 55, 50, 48, 51, 54, 56, 53, 52, 55, 55, 53, 56, 48, 55, 13, 10]) = .panic := by
  decide

/-- Claim C20, amended: for every reader state and every runtime (`canAlloc`
tells which sizes it can allocate), with `hs` the lengths of the `'$'` headers
that `readBulk` parses during the call of `Read`: if every length in `hs` is
between 0 and `maxAlloc` and can be allocated, `Read` returns normally, a value
or an error; `Read` panics exactly when `hs` holds a length that is negative or
above `maxAlloc`, so the allocation in `readBulk` is the only panic site; the
process ends with the runtime's out-of-memory error exactly when `hs` holds a
length in that range that cannot be allocated; in every other respect the call
is the `Read` of the decoder without memory; and whenever `readLine` returns a
line, it has read that line and two more bytes, so `line[:len(line)-2]` is in
bounds. -/
theorem Read_panic_iff_bad_bulk_header (canAlloc : Nat → Bool) (r : Resp) :
    ((∀ len ∈ (Resp.ReadMem canAlloc r).2,
          0 ≤ len ∧ len ≤ maxAlloc ∧ canAlloc len.toNat = true) →
        ∃ v err r', (Resp.ReadMem canAlloc r).1 = .done (.ret v err r') ∧
          Resp.Read r = .ret v err r') ∧
      ((Resp.ReadMem canAlloc r).1 = .done .panic ↔
        ∃ len ∈ (Resp.ReadMem canAlloc r).2, len < 0 ∨ len > maxAlloc) ∧
      ((Resp.ReadMem canAlloc r).1 = .fatal ↔
        ∃ len ∈ (Resp.ReadMem canAlloc r).2,
          0 ≤ len ∧ len ≤ maxAlloc ∧ canAlloc len.toNat = false) ∧
      ((Resp.ReadMem canAlloc r).1 = .fatal ∨
        (Resp.ReadMem canAlloc r).1 = .done (Resp.Read r)) ∧
      (∀ (line : List Byte) (n : Nat) (r' : Resp),
        Resp.readLine r = ((line, n, none), r') → n = line.length + 2) := by
  have h := Resp.ReadMem_agrees canAlloc r
  have hnd := Resp.Read_ne_diverge r
  have hline : ∀ (line : List Byte) (n : Nat) (r' : Resp),
      Resp.readLine r = ((line, n, none), r') → n = line.length + 2 :=
    fun line n r' h => Resp.readLineLoop_count _ _ [] 0 line n r' rfl h
  generalize Resp.ReadMem canAlloc r = p at h
  generalize Resp.Read r = o at h hnd
  obtain ⟨e, hs⟩ := p
  cases e with
  | fatal =>
    obtain ⟨init, last, heq, hinit, h0, h1, h2⟩ := h
    have hmem : last ∈ hs := by rw [heq]; simp
    refine ⟨fun hall => ?_, ⟨fun hc => by simp at hc, fun hc => ?_⟩,
      ⟨fun _ => ⟨last, hmem, h0, h1, h2⟩, fun _ => rfl⟩, Or.inl rfl, hline⟩
    · have := (hall last hmem).2.2
      rw [h2] at this
      simp at this
    · obtain ⟨len, hlen, hbad⟩ := hc
      rw [heq] at hlen
      rcases List.mem_append.1 hlen with hl | hl
      · have := hinit len hl
        simp only [allocOk] at this
        omega
      · simp only [List.mem_singleton] at hl
        subst hl
        omega
  | done o' =>
    obtain ⟨ho, hcase⟩ := h
    subst ho
    rcases hcase with ⟨hp, init, last, heq, hinit, hbad⟩ | ⟨hp, hall⟩
    · subst hp
      have hmem : last ∈ hs := by rw [heq]; simp
      refine ⟨fun hall => ?_, ⟨fun _ => ⟨last, hmem, hbad⟩, fun _ => rfl⟩,
        ⟨fun hc => by simp at hc, fun hc => ?_⟩, Or.inr rfl, hline⟩
      · have := hall last hmem
        omega
      · obtain ⟨len, hlen, h0, h1, h2⟩ := hc
        rw [heq] at hlen
        rcases List.mem_append.1 hlen with hl | hl
        · have := (hinit len hl).2.2
          rw [h2] at this
          simp at this
        · simp only [List.mem_singleton] at hl
          subst hl
          omega
    · refine ⟨fun _ => ?_, ⟨fun hc => ?_, fun hc => ?_⟩,
        ⟨fun hc => by simp at hc, fun hc => ?_⟩, Or.inr rfl, hline⟩
      · cases o' with
        | ret v err r' => exact ⟨v, err, r', rfl, rfl⟩
        | panic => exact absurd rfl hp
        | diverge => exact absurd rfl hnd
      · simp only [Run.done.injEq] at hc
        exact absurd hc hp
      · obtain ⟨len, hlen, hbad⟩ := hc
        have := hall len hlen
        simp only [allocOk] at this
        omega
      · obtain ⟨len, hlen, h0, h1, h2⟩ := hc
        have := (hall len hlen).2.2
        rw [h2] at this
        simp at this

/-- Claim C20, witness: the stream `*1\r\n$1\r\na\r\n` in a process that can
allocate up to 4096 bytes at once; its one `'$'` header is 1, and `Read`
returns. -/
theorem Read_panic_iff_bad_bulk_header_witness :
    (∀ len ∈ (Resp.ReadMem (fun n => decide (n ≤ 4096)) (NewResp [42, 49, 13, 10, 36, 49, 13, 10, 97, 13, 10])).2,
        0 ≤ len ∧ len ≤ maxAlloc ∧ (fun n => decide (n ≤ 4096)) len.toNat = true) ∧
      ∃ v err r',
        (Resp.ReadMem (fun n => decide (n ≤ 4096)) (NewResp [42, 49, 13, 10, 36, 49, 13, 10, 97, 13, 10])).1 =
          .done (.ret v err r') ∧
        Resp.Read (NewResp [42, 49, 13, 10, 36, 49, 13, 10, 97, 13, 10]) = .ret v err r' :=
  ⟨by decide,
    (Read_panic_iff_bad_bulk_header (fun n => decide (n ≤ 4096))
      (NewResp [42, 49, 13, 10, 36, 49, 13, 10, 97, 13, 10])).1 (by decide)⟩

end RedisClone
